import Mathlib

/-!
Verification development for the complex-SVD engine of a matrix-product-state
simulator (source: `src/simulators/matrix_product_state/svd.cpp`).

Conventions of the shallow embedding:

* `double` values are modelled as exact rationals (`ℚ`) in the truncation /
  retry layer, and as real numbers (`ℝ`) in the SVD-kernel layer, where
  `std::sqrt` appears pervasively.  `std::norm` on a real number is its
  square; `std::abs` is `|·|`.
* `std::vector<double>` is a `List`; `v[i]` is `List.getD v i 0` where the
  surrounding code guarantees the access is in range, and is modelled
  explicitly (via `Option` / a dedicated out-of-bounds outcome) at the two
  places the claims discuss possible out-of-range reads.
* `Linalg::almost_equal(a, b, tol)` is defined outside the sources at hand;
  it is modelled from the spec as `|a - b| ≤ tol`.
* `CHOP_THRESHOLD` is defined in `svd.hpp`, outside the sources at hand.
  Modelled from the spec ("default chop for significance counting,
  inherited from the MPS engine"); the upstream engine sets `1e-16`.
* The matrix class's in-place `resize` is defined outside the sources at
  hand; modelled from the spec ("drops trailing rows/cols only").
-/

/-- `THRESHOLD = 1e-9` (svd.cpp line 66), rational layer. -/
def THRESHOLDQ : ℚ := 1 / 10 ^ 9

/-- Modelled from the spec: `CHOP_THRESHOLD` is defined in `svd.hpp`
(not among the sources); the spec lists it as the default chop for
significance counting inherited from the MPS engine, which sets `1e-16`. -/
def CHOP_THRESHOLD : ℚ := 1 / 10 ^ 16

/-- `mul_factor = 1e2` (svd.cpp line 63). -/
def mul_factorQ : ℚ := 100

/-- `NUM_SVD_TRIES = 15` (svd.cpp line 67). -/
def NUM_SVD_TRIES : ℕ := 15

/-- Modelled from the spec: `Linalg::almost_equal(a, b, tol)` holds when
`|a - b| ≤ tol` (spec §4.5 / §4.2 describe the comparisons it implements). -/
def almostEqualQ (a b tol : ℚ) : Bool := |a - b| ≤ tol

/-- `num_of_SV` (svd.cpp lines 114-121): counts entries with
`std::norm(S[i]) > threshold`; for a real entry `std::norm` is the square. -/
def num_of_SV : List ℚ → ℚ → ℕ
  | [], _ => 0
  | s :: rest, threshold =>
    (if s ^ 2 > threshold then 1 else 0) + num_of_SV rest threshold

/-- Sum of squares of a singular-value list (`Σ std::norm(S[i])`). -/
def sumSq : List ℚ → ℚ
  | [] => 0
  | s :: rest => s ^ 2 + sumSq rest

/-- `Σ_{i = lo}^{lo + cnt - 1} std::norm(S[i])`, by index. -/
def sumSqRange (S : List ℚ) : ℕ → ℕ → ℚ
  | _, 0 => 0
  | lo, cnt + 1 => (S.getD lo 0) ^ 2 + sumSqRange S (lo + 1) cnt

/-- `Σ_{i = lo}^{hi - 1} std::norm(S[i])` (empty when `hi ≤ lo`). -/
def tailSumSq (S : List ℚ) (lo hi : ℕ) : ℚ := sumSqRange S lo (hi - lo)

/-- The truncation sweep of `reduce_zeros` (svd.cpp lines 136-144):
`for (i = new_SV_num - 1; i > 0; i--)` accumulating squared values while the
running sum stays strictly under the budget, and otherwise stopping with
`new_SV_num = i + 1`.  `i` is the loop index (the loop body runs only for
`i > 0`), `acc` is `sum_squares`, and `cur` is the entering `new_SV_num`,
returned unchanged when the loop runs to completion without the `break`. -/
def sweepLoop (S : List ℚ) (budget : ℚ) : ℕ → ℚ → ℕ → ℕ
  | 0, _, cur => cur
  | i + 1, acc, cur =>
    if acc + (S.getD (i + 1) 0) ^ 2 < budget then
      sweepLoop S budget i (acc + (S.getD (i + 1) 0) ^ 2) cur
    else (i + 1) + 1

/-- `new_SV_num` as computed by `reduce_zeros` (svd.cpp lines 126-144):
start from `SV_num = num_of_SV(S, CHOP_THRESHOLD)`, cap by
`max_bond_dimension`, then run the sweep from index `new_SV_num - 1`. -/
def newRank (S : List ℚ) (maxRank : ℕ) (budget : ℚ) : ℕ :=
  let sv := num_of_SV S CHOP_THRESHOLD
  let n1 := if maxRank < sv then maxRank else sv
  sweepLoop S budget (n1 - 1) 0 n1

/-- `reduce_zeros` (svd.cpp lines 123-173).  `U` and `V` are lists of rows
over an arbitrary entry type (the function never inspects their entries);
`resize` keeps a leading block (modelled from the spec: resize drops
trailing rows/columns).  `sqrtf` models `std::sqrt` on the working type.
The discarded-weight loop (lines 158-162) runs after `S.resize(new_SV_num)`
and indexes the shrunk vector up to the old `SV_num`; a `std::vector` shrink
leaves the trailing storage in place, so those reads see the original
values, which is how they are modelled here.
Returns `(U, S, V, discarded_value)`. -/
def reduce_zeros {α : Type} (sqrtf : ℚ → ℚ) (U : List (List α)) (S : List ℚ)
    (V : List (List α)) (maxRank : ℕ) (budget : ℚ) (mps_lapack : Bool) :
    List (List α) × List ℚ × List (List α) × ℚ :=
  let sv := num_of_SV S CHOP_THRESHOLD
  let new := newRank S maxRank budget
  let U1 := U.map (fun row => row.take new)
  let S1 := S.take new
  let V1 := if mps_lapack then V.take new else V.map (fun row => row.take new)
  let discarded := tailSumSq S new sv
  let s2 := sumSq S1
  let S2 := if ¬ almostEqualQ (1 - s2) 0 THRESHOLDQ
    then S1.map (fun x => x / sqrtf s2) else S1
  (U1, S2, V1, discarded)

/-- Projection: the `S` component returned by `reduce_zeros`. -/
def rzS {α : Type} (r : List (List α) × List ℚ × List (List α) × ℚ) :
    List ℚ := r.2.1

/-- Projection: the discarded weight returned by `reduce_zeros`. -/
def rzDiscarded {α : Type} (r : List (List α) × List ℚ × List (List α) × ℚ) :
    ℚ := r.2.2.2

/-- The retry loop of `qiskit_csvd_wrapper` (svd.cpp lines 618-628):
`while (times <= NUM_SVD_TRIES && current_status == FAILURE) { times++;
copied_A = copied_A * mul_factor; A = copied_A; current_status = csvd(...); }`.
The abstract oracle `csvdO j` is the outcome of `csvd` on `A₀ · mul_factor^j`
(`true` = SUCCESS) together with the contents `csvd` leaves in `S`.
Since `times` increases by 1 each iteration and the guard requires
`times ≤ 15`, the loop runs at most 16 times; it is embedded structurally
on `fuel = 16 - times`, so `times = 16 - fuel` and the recursive call uses
`csvdO (16 - fuel) = csvdO (times + 1)`.  Returns the final
`(times, (status, S))`. -/
def wrapperLoopAux (csvdO : ℕ → Bool × List ℚ) :
    ℕ → Bool × List ℚ → ℕ × (Bool × List ℚ)
  | 0, st => (16, st)
  | fuel + 1, st =>
    if st.1 = false then wrapperLoopAux csvdO fuel (csvdO (16 - fuel))
    else (16 - (fuel + 1), st)

/-- `qiskit_csvd_wrapper` (svd.cpp lines 606-638), abstracted over the
`csvd` oracle (the wrapper's own control flow is what is at stake; `U` and
`V` are returned untouched from the last `csvd` call and are omitted).
`none` models `throw std::runtime_error("SVD failed")` (lines 629-633);
`some S` models a normal return, after every `S[k]` has been divided by
`pow(mul_factor, times)` (lines 636-637). -/
def qiskit_csvd_wrapper (csvdO : ℕ → Bool × List ℚ) : Option (List ℚ) :=
  let st0 := csvdO 0
  if st0.1 = true then some st0.2
  else
    let res := wrapperLoopAux csvdO 16 st0
    if res.1 = NUM_SVD_TRIES then none
    else some (res.2.2.map (fun s => s / mul_factorQ ^ res.1))

/-- `THRESHOLD = 1e-9` (svd.cpp line 66), real layer. -/
noncomputable def THRESHOLDR : ℝ := 1 / 10 ^ 9

/-- Modelled from the spec: `Linalg::almost_equal(a, b, tol)` over `ℝ`. -/
def almostEqualR (a b tol : ℝ) : Prop := |a - b| ≤ tol

/-- A complex matrix (`cmatrix_t`): dimensions plus an entry function.
Entries are meaningful on `[0, rows) × [0, cols)`. -/
structure CM where
  rows : ℕ
  cols : ℕ
  f : ℕ → ℕ → ℂ

/-- `Σ_{k = lo}^{lo + cnt - 1} g k` over `ℂ`. -/
def csum (g : ℕ → ℂ) : ℕ → ℕ → ℂ
  | _, 0 => 0
  | lo, cnt + 1 => g lo + csum g (lo + 1) cnt

/-- `AER::Utils::dagger` (external framework helper): the conjugate
transpose. -/
def dagger (M : CM) : CM :=
  ⟨M.cols, M.rows, fun i j => (starRingEnd ℂ) (M.f j i)⟩

/-- `cmatrix_t` `operator*` (external framework helper): the standard
matrix product; the inner dimension is the left factor's column count. -/
def matMul (X Y : CM) : CM :=
  ⟨X.rows, Y.cols, fun i j => csum (fun k => X.f i k * Y.f k j) 0 X.cols⟩

/-- The matrix built by `diag` when all of its reads of `S` are in range:
`S[i]` on the diagonal, zeros elsewhere (svd.cpp line 75). -/
noncomputable def diagM (S : List ℝ) (m n : ℕ) : CM :=
  ⟨m, n, fun i j => if i = j then ((S.getD i 0 : ℝ) : ℂ) else 0⟩

/-- `diag(S, m, n)` (svd.cpp lines 71-79): the double loop evaluates
`S[i]` at every diagonal position `i = j` with `i < m`, `j < n`, without
any guard against `i ≥ |S|`; those accesses are in range exactly when
`min m n ≤ |S|`.  `none` models the out-of-range read (the spec defines
element access of an ordered sequence only within its length). -/
noncomputable def diag (S : List ℝ) (m n : ℕ) : Option CM :=
  if min m n ≤ S.length then some (diagM S m n) else none

/-- Bounded existential mirroring an early-exit `for` loop scanning the
indices `0, …, n-1` for a condition that aborts the loop. -/
def anyIdx (P : ℕ → Prop) : ℕ → Prop
  | 0 => False
  | n + 1 => anyIdx P n ∨ P n

/-- `validate_SVD_result` (svd.cpp lines 193-206) raises
`"Error: Wrong SVD calculations: A != USV*"` precisely when its double
loop over `(ii, jj) ∈ [0, nrows) × [0, ncols)` finds an entry with
`!almost_equal(abs(A(ii,jj)), abs(product(ii,jj)), THRESHOLD)`, where
`product = (U * diag(S, nrows, ncols)) * dagger(V)`; the run is defined
only when `diag`'s reads of `S` are in range.  The function takes all four
arguments by const reference and modifies none of them (the embedding is a
pure predicate). -/
noncomputable def validate_SVD_raises (A U : CM) (S : List ℝ) (V : CM) : Prop :=
  ∃ D, diag S A.rows A.cols = some D ∧
    anyIdx (fun ii => anyIdx (fun jj =>
      ¬ almostEqualR (Complex.abs (A.f ii jj))
        (Complex.abs ((matMul (matMul U D) (dagger V)).f ii jj)) THRESHOLDR)
      A.cols) A.rows

-- -------------------------------------------------------------------
-- The in-house SVD kernel `csvd` (svd.cpp lines 209-581)
-- -------------------------------------------------------------------

open Classical

/-- `zero_threshold = 1e-50` (svd.cpp line 65). -/
noncomputable def zero_thresholdR : ℝ := 1 / 10 ^ 50

/-- `eta = 1e-10` (svd.cpp line 214). -/
noncomputable def etaR : ℝ := 1 / 10 ^ 10

/-- `tol = 1.5e-34` (svd.cpp line 214). -/
noncomputable def tolR : ℝ := 15 / 10 ^ 35

/-- The literal `1e-13` used in the sign tests (svd.cpp lines 389, 452,
492). -/
noncomputable def oneE13 : ℝ := 1 / 10 ^ 13

/-- `tiny_factor = 1e30` (svd.cpp line 64). -/
noncomputable def tinyFactor : ℝ := 10 ^ 30

/-- Iterate a state transformer over the indices `lo, …, lo + cnt - 1` in
ascending order (a C `for` loop). -/
def iterRange {σ : Type} (g : ℕ → σ → σ) : ℕ → ℕ → σ → σ
  | _, 0, st => st
  | lo, cnt + 1, st => iterRange g (lo + 1) cnt (g lo st)

/-- `Σ_{i = lo}^{lo + cnt - 1} g i` over `ℝ`. -/
def rsum (g : ℕ → ℝ) : ℕ → ℕ → ℝ
  | _, 0 => 0
  | lo, cnt + 1 => g lo + rsum g (lo + 1) cnt

/-- Pointwise update of one matrix entry. -/
def CM.upd (M : CM) (a b : ℕ) (v : ℂ) : CM :=
  ⟨M.rows, M.cols, fun i j => if i = a ∧ j = b then v else M.f i j⟩

/-- The identity matrix written by the `U.initialize(m, m)` /
`V.initialize(n, n)` loops (svd.cpp lines 325-339). -/
def idMat (r : ℕ) : CM :=
  ⟨r, r, fun i j => if i = j then 1 else 0⟩

/-- Inner `j`-iteration of the column-reflector application (svd.cpp lines
248-259): `q = Σ_{i=k}^{m-1} conj(A(i,k))·A(i,j) / (z(z+w))`, then
`A(i,j) -= q·A(i,k)` for `i = k, …, m-1`. -/
noncomputable def colApplyJ (m k : ℕ) (z w : ℝ) (A : CM) (j : ℕ) : CM :=
  let q := csum (fun i => (starRingEnd ℂ) (A.f i k) * A.f i j) k (m - k) /
    (((z * (z + w) : ℝ)) : ℂ)
  ⟨A.rows, A.cols, fun a bb =>
    if k ≤ a ∧ a < m ∧ bb = j then A.f a bb - q * A.f a k else A.f a bb⟩

/-- Column step of the bidiagonalization for index `k` (svd.cpp lines
229-269): column norm below the diagonal, `b[k] = 0` then possibly
`b[k] = √z`, the Householder pivot update of `A(k,k)`, the reflector
applied to trailing columns, and the phase transformation of row `k`. -/
noncomputable def colStep (m n k : ℕ) (A : CM) (b : List ℝ) : CM × List ℝ :=
  let z0 := rsum (fun i => Complex.normSq (A.f i k)) k (m - k)
  let b1 := b.set k 0
  if tolR < z0 then
    let z := Real.sqrt z0
    let b2 := b1.set k z
    let w := Complex.abs (A.f k k)
    let q : ℂ := if almostEqualR w 0 zero_thresholdR then 1
      else A.f k k / ((w : ℝ) : ℂ)
    let A1 := CM.upd A k k (q * (((z + w : ℝ)) : ℂ))
    let A2 :=
      if k ≠ n - 1 then
        let A2a := iterRange (fun j B => colApplyJ m k z w B j) (k + 1)
          (n - 1 - k) A1
        let q2 : ℂ := -(starRingEnd ℂ) (A2a.f k k) /
          ((Complex.abs (A2a.f k k) : ℝ) : ℂ)
        ⟨A2a.rows, A2a.cols, fun a bb =>
          if a = k ∧ k + 1 ≤ bb ∧ bb < n then q2 * A2a.f a bb else A2a.f a bb⟩
      else A1
    (A2, b2)
  else (A, b1)

/-- Inner `i`-iteration of the row-reflector application (svd.cpp lines
291-302). -/
noncomputable def rowApplyI (n k : ℕ) (z w : ℝ) (A : CM) (i : ℕ) : CM :=
  let q := csum (fun j => (starRingEnd ℂ) (A.f k j) * A.f i j) (k + 1)
    (n - (k + 1)) / (((z * (z + w) : ℝ)) : ℂ)
  ⟨A.rows, A.cols, fun a bb =>
    if a = i ∧ k + 1 ≤ bb ∧ bb < n then A.f a bb - q * A.f k bb else A.f a bb⟩

/-- Row step of the bidiagonalization for index `k` (svd.cpp lines
273-310): the super-diagonal reflector producing `c[k+1]` and the phase
transformation of column `k+1`. -/
noncomputable def rowStep (m n k : ℕ) (A : CM) (c : List ℝ) : CM × List ℝ :=
  let z0 := rsum (fun j => Complex.normSq (A.f k j)) (k + 1) (n - (k + 1))
  let c1 := c.set (k + 1) 0
  if tolR < z0 then
    let z := Real.sqrt z0
    let c2 := c1.set (k + 1) z
    let w := Complex.abs (A.f k (k + 1))
    let q : ℂ := if almostEqualR w 0 zero_thresholdR then 1
      else A.f k (k + 1) / ((w : ℝ) : ℂ)
    let A1 := CM.upd A k (k + 1) (q * (((z + w : ℝ)) : ℂ))
    let A2 := iterRange (fun i B => rowApplyI n k z w B i) (k + 1)
      (m - (k + 1)) A1
    let q2 : ℂ := -(starRingEnd ℂ) (A2.f k (k + 1)) /
      ((Complex.abs (A2.f k (k + 1)) : ℝ) : ℂ)
    let A3 : CM := ⟨A2.rows, A2.cols, fun a bb =>
      if bb = k + 1 ∧ k + 1 ≤ a ∧ a < m then A2.f a bb * q2 else A2.f a bb⟩
    (A3, c2)
  else (A, c1)

/-- The bidiagonalization loop (svd.cpp lines 228-312): process column
step for `k`; stop after the column step when `k = n - 1`; otherwise do
the row step and continue with `k + 1`.  `cnt` counts the remaining
indices (`n` at the initial call, so the loop always reaches `k = n - 1`
when `n ≥ 1`). -/
noncomputable def phase1Loop (m n : ℕ) :
    ℕ → ℕ → CM × List ℝ × List ℝ → CM × List ℝ × List ℝ
  | _, 0, st => st
  | k, cnt + 1, st =>
    let Ab := colStep m n k st.1 st.2.1
    if k = n - 1 then (Ab.1, Ab.2, st.2.2)
    else
      let Ac := rowStep m n k Ab.1 st.2.2
      phase1Loop m n (k + 1) cnt (Ac.1, Ab.2, Ac.2)

/-- Phase 1 of `csvd` on the (possibly transposed) input: returns the
overwritten `A` (holding the Householder vectors), `b` and `c`.  The
work vectors have size `max(m, n)` and start at zero (svd.cpp lines
210-211, 227). -/
noncomputable def phase1 (m n : ℕ) (A : CM) : CM × List ℝ × List ℝ :=
  phase1Loop m n 0 n
    (A, List.replicate (max m n) 0, List.replicate (max m n) 0)

/-- The copy loop `S[k] = b[k]` for `k < n` (svd.cpp lines 315-316),
writing into the caller-supplied `S`. -/
def initS (b : List ℝ) (n : ℕ) (S : List ℝ) : List ℝ :=
  iterRange (fun k SS => SS.set k (b.getD k 0)) 0 n S

/-- The local vector `t` after `t[k] = c[k]` for `k < n` (svd.cpp lines
211, 317); it starts as `size` zeros. -/
def initT (c : List ℝ) (n size : ℕ) : List ℝ :=
  iterRange (fun k tt => tt.set k (c.getD k 0)) 0 n (List.replicate size 0)

/-- `eps = eta · max_k (S[k] + t[k])` accumulated over `k < n` from 0
(svd.cpp lines 314-320), with `S[k] = b[k]`, `t[k] = c[k]`. -/
noncomputable def epsOf (b c : List ℝ) (n : ℕ) : ℝ :=
  etaR * iterRange (fun k e => max e (b.getD k 0 + c.getD k 0)) 0 n 0

/-- State of phase 2: the working `S` and `t` vectors and the rotation
accumulators `U`, `V`. -/
structure P2St where
  S : List ℝ
  t : List ℝ
  U : CM
  V : CM

/-- Apply a real Givens rotation to columns `ca` and `cb` of `M`, on rows
`i < rows`, taking real parts (svd.cpp lines 371-376, 440-445, 480-485:
`x = real(M(j,ca)); y = real(M(j,cb)); M(j,ca) = x·cs + y·sn;
M(j,cb) = y·cs − x·sn`).  In every call site `ca ≠ cb`, so the
simultaneous update matches the sequential C assignments. -/
noncomputable def rotColsRe (M : CM) (rows ca cb : ℕ) (cs sn : ℝ) : CM :=
  ⟨M.rows, M.cols, fun i j =>
    if i < rows ∧ j = ca then
      ((((M.f i ca).re * cs + (M.f i cb).re * sn : ℝ)) : ℂ)
    else if i < rows ∧ j = cb then
      ((((M.f i cb).re * cs - (M.f i ca).re * sn : ℝ)) : ℂ)
    else M.f i j⟩

/-- The deflation scan (svd.cpp lines 344-352):
`for (l = k; l >= 0; l--) { if (|t[l]| < eps) { jump = true; break; }
else if (|S[l-1]| < eps) break; }`.  At `l = 0` the second comparison
reads `S[-1]`, which is out of bounds for every caller; that evaluation is
modelled as `none`.  Otherwise the result is `some (jump, l)`. -/
noncomputable def deflScan (S t : List ℝ) (eps : ℝ) : ℕ → Option (Bool × ℕ)
  | 0 => if |t.getD 0 0| < eps then some (true, 0) else none
  | l + 1 =>
    if |t.getD (l + 1) 0| < eps then some (true, l + 1)
    else if |S.getD l 0| < eps then some (false, l + 1)
    else deflScan S t eps l

/-- The preparatory Givens sweep run when the scan exited through the
`|S[l-1]| < eps` branch (svd.cpp lines 353-377): `cs = 0, sn = 1`,
`l1 = l - 1`, then for `i = l, …, k`: `f = sn·t[i]; t[i] = cs·t[i];`
break when `|f| < eps`, else `h = S[i]; w = √(f²+h²); S[i] = w;
cs = h/w; sn = -f/w` and rotate columns `l1`, `i` of `U`. -/
noncomputable def prepLoop (eps : ℝ) (n l1 : ℕ) :
    ℕ → ℕ → ℝ → ℝ → P2St → P2St
  | _, 0, _, _, st => st
  | i, cnt + 1, cs, sn, st =>
    let f := sn * st.t.getD i 0
    let t1 := st.t.set i (cs * st.t.getD i 0)
    if |f| < eps then { st with t := t1 }
    else
      let h := st.S.getD i 0
      let w := Real.sqrt (f ^ 2 + h ^ 2)
      let S1 := st.S.set i w
      let cs1 := h / w
      let sn1 := -f / w
      let U1 := rotColsRe st.U n l1 i cs1 sn1
      prepLoop eps n l1 (i + 1) cnt cs1 sn1 ⟨S1, t1, U1, st.V⟩

/-- Result of the bulge chase: either the loop ran to `i = k` (carrying
the final `f` and `x` for the post-loop assignments), or the kernel
returned FAILURE (carrying the current `S`). -/
inductive ChaseRes where
  | done (f x : ℝ) (st : P2St) : ChaseRes
  | failS (S : List ℝ) : ChaseRes

/-- One pass of the bulge chase, `i = l+1, …, k` (svd.cpp lines 397-486).
Only `cs`, `sn`, `f`, `x` survive from one iteration to the next (`g`,
`y`, `h` are reassigned from `t[i]` and `S[i]` at the top of the body).
`large_f` is the extended-precision rescue value (svd.cpp lines 415-435);
in this exact-arithmetic embedding it is the same product scaled by
`tiny_factor²`.  Lines 452-458 first set `w = √(h²+f²)` in the non-tiny
branch and then recompute the same `w` unconditionally, so the net effect
embedded here is a single assignment together with the `tiny_w` flag.
FAILURE is returned when `w` is (almost) zero and the rescue did not fire
(svd.cpp lines 459-467). -/
noncomputable def chaseLoop (eps : ℝ) (n : ℕ) :
    ℕ → ℕ → ℝ → ℝ → ℝ → ℝ → P2St → ChaseRes
  | _, 0, _, _, f, x, st => ChaseRes.done f x st
  | i, cnt + 1, cs, sn, f, x, st =>
    let g1 := st.t.getD i 0
    let y1 := st.S.getD i 0
    let h1 := sn * g1
    let g2 := cs * g1
    let w1 := Real.sqrt (h1 ^ 2 + f ^ 2)
    let t1 := st.t.set (i - 1) w1
    let cs1 := f / w1
    let sn1 := h1 / w1
    let f1 := x * cs1 + g2 * sn1
    let largeF : ℝ :=
      if almostEqualR f1 0 zero_thresholdR then
        (x * tinyFactor) * (cs1 * tinyFactor) +
          (g2 * tinyFactor) * (sn1 * tinyFactor)
      else 0
    let g3 := g2 * cs1 - x * sn1
    let h2 := y1 * sn1
    let y2 := y1 * cs1
    let V1 := rotColsRe st.V n (i - 1) i cs1 sn1
    let tinyW : Prop := |h2| < oneE13 ∧ |f1| < oneE13 ∧
      ¬ almostEqualR largeF 0 zero_thresholdR
    let w2 := Real.sqrt (h2 ^ 2 + f1 ^ 2)
    if almostEqualR w2 0 zero_thresholdR ∧ ¬ tinyW then ChaseRes.failS st.S
    else
      let S1 := st.S.set (i - 1) w2
      let cs2 := if tinyW then 1 else f1 / w2
      let sn2 := if tinyW then 0 else h2 / w2
      let f2 := cs2 * g3 + sn2 * y2
      let x1 := cs2 * y2 - sn2 * g3
      let U1 := rotColsRe st.U n (i - 1) i cs2 sn2
      chaseLoop eps n (i + 1) cnt cs2 sn2 f2 x1 ⟨S1, t1, U1, V1⟩

/-- Result of the inner `while (true)` loop for one outer index `k`. -/
inductive InnerRes where
  | brk (w : ℝ) (st : P2St) : InnerRes
  | failS (S : List ℝ) : InnerRes
  | oob : InnerRes
  | noFuel : InnerRes

/-- The Wilkinson-style shift value `f` entering the chase (svd.cpp lines
383-393), from `x = S[l]`, `y = S[k-1]`, `g = t[k-1]`, `h = t[k]` and
`w = S[k]`: `f = ((y-w)(y+w) + (g-h)(g+h)) / (2hy)`, then
`g = √(f²+1)` negated when `f < -1e-13`, then
`f = ((x-w)(x+w) + (y/(f+g) - h)·h) / x`. -/
noncomputable def shiftF (x y g h w : ℝ) : ℝ :=
  let f0 := ((y - w) * (y + w) + (g - h) * (g + h)) / (2 * h * y)
  let g0 := if f0 < -oneE13 then -(Real.sqrt (f0 ^ 2 + 1))
    else Real.sqrt (f0 ^ 2 + 1)
  ((x - w) * (x + w) + (y / (f0 + g0) - h) * h) / x

/-- The inner `while (true)` loop of phase 2 for outer index `k` (svd.cpp
lines 342-490): scan for the deflation index `l`; when the scan exited
through the `S` branch run the preparatory sweep; read `w = S[k]`; break
when `l = k`; otherwise compute the Wilkinson-style shift (svd.cpp lines
383-396) and run the chase, then `t[l] = 0; t[k] = f; S[k] = x` and loop.
The C loop has no iteration bound, hence the `fuel` parameter. -/
noncomputable def innerWhile (eps : ℝ) (n k : ℕ) : ℕ → P2St → InnerRes
  | 0, _ => InnerRes.noFuel
  | fuel + 1, st =>
    match deflScan st.S st.t eps k with
    | none => InnerRes.oob
    | some jl =>
      let st1 := if jl.1 then st
        else prepLoop eps n (jl.2 - 1) jl.2 (k - jl.2 + 1) 0 1 st
      let w := st1.S.getD k 0
      if jl.2 = k then InnerRes.brk w st1
      else
        match chaseLoop eps n (jl.2 + 1) (k - jl.2) 1 1
            (shiftF (st1.S.getD jl.2 0) (st1.S.getD (k - 1) 0)
              (st1.t.getD (k - 1) 0) (st1.t.getD k 0) w)
            (st1.S.getD jl.2 0) st1 with
        | ChaseRes.failS SS => InnerRes.failS SS
        | ChaseRes.done f2 x2 st2 =>
          innerWhile eps n k fuel
            ⟨st2.S.set k x2, (st2.t.set jl.2 0).set k f2, st2.U, st2.V⟩

/-- Negate column `k` of `V` on rows `j < n` (svd.cpp lines 495-497). -/
noncomputable def negColV (V : CM) (n k : ℕ) : CM :=
  ⟨V.rows, V.cols, fun i j => if i < n ∧ j = k then -V.f i j else V.f i j⟩

/-- Result of phase 2 as a whole. -/
inductive P2Res where
  | ok (st : P2St) : P2Res
  | failS (S : List ℝ) : P2Res
  | oob : P2Res
  | noFuel : P2Res

/-- The outer loop of phase 2, `k = n-1, …, 0` (svd.cpp lines 341-499):
run the inner loop for `k = kk - 1`, then the sign sweep
(`if (w < -1e-13) { S[k] = -w; negate column k of V }`, svd.cpp lines
492-498), and continue with the next smaller index. -/
noncomputable def outerLoop (eps : ℝ) (n fuel : ℕ) : ℕ → P2St → P2Res
  | 0, st => P2Res.ok st
  | kk + 1, st =>
    match innerWhile eps n kk fuel st with
    | InnerRes.brk w st1 =>
      let st2 := if w < -oneE13
        then ⟨st1.S.set kk (-w), st1.t, st1.U, negColV st1.V n kk⟩
        else st1
      outerLoop eps n fuel kk st2
    | InnerRes.failS SS => P2Res.failS SS
    | InnerRes.oob => P2Res.oob
    | InnerRes.noFuel => P2Res.noFuel

/-- The selection scan of the sort phase (svd.cpp lines 505-512):
`g = -1; j = k; for (i = k; i < n; i++) if (g < S[i]) { g = S[i];
j = i; }`, returning the final `(g, j)`. -/
noncomputable def selMaxLoop (S : List ℝ) : ℕ → ℕ → ℝ → ℕ → ℝ × ℕ
  | _, 0, g, j => (g, j)
  | i, cnt + 1, g, j =>
    if g < S.getD i 0 then selMaxLoop S (i + 1) cnt (S.getD i 0) i
    else selMaxLoop S (i + 1) cnt g j

/-- Swap columns `j` and `k` of `M` on rows `i < n` (svd.cpp lines
518-528; note only the first `n` rows are swapped, also for the m×m
matrix `U`).  Only called with `j ≠ k`. -/
noncomputable def swapColsN (M : CM) (n j k : ℕ) : CM :=
  ⟨M.rows, M.cols, fun a b =>
    if a < n ∧ b = j then M.f a k
    else if a < n ∧ b = k then M.f a j
    else M.f a b⟩

/-- One pass of the selection sort (svd.cpp lines 504-530): find the
maximum of `S[k..n)` (with `g` starting at `-1`), and when its position
`j` differs from `k`, exchange `S[j] ↔ S[k]` and the corresponding
columns of `V` and `U`. -/
noncomputable def sortPass (n k : ℕ) (st : P2St) : P2St :=
  let gj := selMaxLoop st.S k (n - k) (-1) k
  if gj.2 ≠ k then
    ⟨(st.S.set gj.2 (st.S.getD k 0)).set k gj.1, st.t,
      swapColsN st.U n gj.2 k, swapColsN st.V n gj.2 k⟩
  else st

/-- The selection-sort loop over `k = 0, …, n-1`. -/
noncomputable def sortLoop (n : ℕ) : ℕ → ℕ → P2St → P2St
  | _, 0, st => st
  | k, cnt + 1, st => sortLoop n (k + 1) cnt (sortPass n k st)

/-- Inner `j`-column update of the U back-accumulation (svd.cpp lines
538-547). -/
noncomputable def backUCol (A : CM) (b : List ℝ) (m k : ℕ) (U : CM)
    (j : ℕ) : CM :=
  let q := csum (fun i => (starRingEnd ℂ) (A.f i k) * U.f i j) k (m - k) /
    (((Complex.abs (A.f k k) * b.getD k 0 : ℝ)) : ℂ)
  ⟨U.rows, U.cols, fun a bb =>
    if k ≤ a ∧ a < m ∧ bb = j then U.f a bb - q * A.f a k else U.f a bb⟩

/-- One step of the U back-accumulation for index `k` (svd.cpp lines
532-549): skip when `b[k]` is (almost) zero; otherwise scale row `k` of
`U` by `-A(k,k)/|A(k,k)|` and apply the stored column reflector to every
column `j < m`. -/
noncomputable def backUStep (A : CM) (b : List ℝ) (m k : ℕ) (U : CM) : CM :=
  if almostEqualR (b.getD k 0) 0 zero_thresholdR then U
  else
    let q0 : ℂ := -(A.f k k) / ((Complex.abs (A.f k k) : ℝ) : ℂ)
    let U1 : CM := ⟨U.rows, U.cols, fun a bb =>
      if a = k ∧ bb < m then q0 * U.f a bb else U.f a bb⟩
    iterRange (fun j UU => backUCol A b m k UU j) 0 m U1

/-- The U back-accumulation, `k = n-1, …, 0`. -/
noncomputable def backULoop (A : CM) (b : List ℝ) (m : ℕ) : ℕ → CM → CM
  | 0, U => U
  | kk + 1, U => backULoop A b m kk (backUStep A b m kk U)

/-- Inner `j`-column update of the V back-accumulation (svd.cpp lines
560-569): `q = Σ_{i=k+1}^{n-1} A(k,i)·V(i,j) / (|A(k,k+1)|·c[k+1])`,
then `V(i,j) -= q·conj(A(k,i))`. -/
noncomputable def backVCol (A : CM) (c : List ℝ) (n k : ℕ) (V : CM)
    (j : ℕ) : CM :=
  let q := csum (fun i => A.f k i * V.f i j) (k + 1) (n - (k + 1)) /
    (((Complex.abs (A.f k (k + 1)) * c.getD (k + 1) 0 : ℝ)) : ℂ)
  ⟨V.rows, V.cols, fun a bb =>
    if k + 1 ≤ a ∧ a < n ∧ bb = j then
      V.f a bb - q * (starRingEnd ℂ) (A.f k a)
    else V.f a bb⟩

/-- One step of the V back-accumulation for index `k` (svd.cpp lines
551-571). -/
noncomputable def backVStep (A : CM) (c : List ℝ) (n k : ℕ) (V : CM) : CM :=
  if almostEqualR (c.getD (k + 1) 0) 0 zero_thresholdR then V
  else
    let q0 : ℂ := -(starRingEnd ℂ) (A.f k (k + 1)) /
      ((Complex.abs (A.f k (k + 1)) : ℝ) : ℂ)
    let V1 : CM := ⟨V.rows, V.cols, fun a bb =>
      if a = k + 1 ∧ bb < n then q0 * V.f a bb else V.f a bb⟩
    iterRange (fun j VV => backVCol A c n k VV j) 0 n V1

/-- The V back-accumulation, `k = n-2, …, 0` (svd.cpp line 551 starts at
`n - 1 - 1`). -/
noncomputable def backVLoop (A : CM) (c : List ℝ) (n : ℕ) : ℕ → CM → CM
  | 0, V => V
  | kk + 1, V => backVLoop A c n kk (backVStep A c n kk V)

/-- Outcome of `csvd`: SUCCESS with `(U, S, V)`, FAILURE (carrying the
state of the caller's `S` at the return), the out-of-bounds read of
`S[-1]` in the deflation scan, or fuel exhaustion of the unbounded inner
loop. -/
inductive SvdOut where
  | ok (U : CM) (S : List ℝ) (V : CM) : SvdOut
  | fail (S : List ℝ) : SvdOut
  | oobRead : SvdOut
  | noFuel : SvdOut

/-- Projection: the `S` the caller observes after `csvd` returns. -/
def SvdOut.sList : SvdOut → Option (List ℝ)
  | SvdOut.ok _ S _ => some S
  | SvdOut.fail S => some S
  | _ => none

/-- Projection: did `csvd` return SUCCESS? -/
def SvdOut.isOk : SvdOut → Bool
  | SvdOut.ok _ _ _ => true
  | _ => false

/-- The convergence threshold `eps` computed by `csvd` on input `A0`
(after the `m < n` transposition, svd.cpp lines 219-225 and 314-320). -/
noncomputable def csvdEps (A0 : CM) : ℝ :=
  let A1 := if A0.rows < A0.cols then dagger A0 else A0
  let pr := phase1 (max A0.rows A0.cols) (min A0.rows A0.cols) A1
  epsOf pr.2.1 pr.2.2 (min A0.rows A0.cols)

/-- `csvd` (svd.cpp lines 209-581).  `S0` is the caller-supplied `S`
(written in place; never resized by the kernel).  `fuel` bounds the
iterations of each unbounded inner `while (true)` loop. -/
noncomputable def csvd (fuel : ℕ) (A0 : CM) (S0 : List ℝ) : SvdOut :=
  let transposed := A0.rows < A0.cols
  let A1 := if transposed then dagger A0 else A0
  let m := max A0.rows A0.cols
  let n := min A0.rows A0.cols
  let pr := phase1 m n A1
  let S1 := initS pr.2.1 n S0
  let t1 := initT pr.2.2 n (max m n)
  let eps := epsOf pr.2.1 pr.2.2 n
  match outerLoop eps n fuel n ⟨S1, t1, idMat m, idMat n⟩ with
  | P2Res.failS SS => SvdOut.fail SS
  | P2Res.oob => SvdOut.oobRead
  | P2Res.noFuel => SvdOut.noFuel
  | P2Res.ok st =>
    let st1 := sortLoop n 0 n st
    let U1 := backULoop pr.1 pr.2.1 m n st1.U
    let V1 := backVLoop pr.1 pr.2.2 n (n - 1) st1.V
    if transposed then SvdOut.ok V1 st1.S U1 else SvdOut.ok U1 st1.S V1

/-- Bookkeeping relation for the kernel's handling of the caller-supplied
`S`: the vector kept its length and its entries from index `n` on. -/
def SKept (n : ℕ) (S0 S1 : List ℝ) : Prop :=
  S1.length = S0.length ∧ S1.drop n = S0.drop n

/-- Bookkeeping predicate on inner-loop results: the observable `S` kept
its length and tail relative to `S0` (trivial for the fuel/out-of-bounds
outcomes, which surface no `S`). -/
def innerKept (n : ℕ) (S0 : List ℝ) : InnerRes → Prop
  | InnerRes.brk _ st1 => SKept n S0 st1.S
  | InnerRes.failS SS => SKept n S0 SS
  | _ => True

/-- Bookkeeping predicate on phase-2 results, as `innerKept`. -/
def p2Kept (n : ℕ) (S0 : List ℝ) : P2Res → Prop
  | P2Res.ok st => SKept n S0 st.S
  | P2Res.failS SS => SKept n S0 SS
  | _ => True


/-- Bookkeeping predicate on inner-loop results for the sign sweep: on a
`brk w st1` exit, `w` is exactly `st1.S[k]` (the single `break` site at
svd.cpp line 382 reads `w = S[k]` just before it), and the inner loop has
not written `S` at any index above `k` relative to the entry state `S0`
(the preparatory sweep writes indices `l..k`, the chase writes
`l..k-1`, and the post-chase assignment writes `S[k]`). -/
def innerBrk (k : ℕ) (S0 : List ℝ) : InnerRes → Prop
  | InnerRes.brk w st1 => w = st1.S.getD k 0 ∧
      ∀ j, k < j → st1.S.getD j 0 = S0.getD j 0
  | _ => True

/-- The observable data the selection sort permutes for column `j`: the
singular value `S[j]` together with column `j` of `U` and of `V`
restricted to the first `n` rows (svd.cpp lines 514-528 swap only rows
`i < n`, also for the m-row matrix `U`). -/
def colTriple (n : ℕ) (st : P2St) (j : ℕ) : ℝ × (ℕ → ℂ) × (ℕ → ℂ) :=
  (st.S.getD j 0, fun i => if i < n then st.U.f i j else 0,
    fun i => if i < n then st.V.f i j else 0)

-- ===================================================================
-- Theorems
-- ===================================================================

theorem almostEqualQ_iff (a b tol : ℚ) : almostEqualQ a b tol = true ↔ |a - b| ≤ tol := by
  simp [almostEqualQ]

theorem sumSqRange_nil (lo cnt : ℕ) : sumSqRange [] lo cnt = 0 := by
  induction cnt generalizing lo with
  | zero => rfl
  | succ n ih => simp [sumSqRange, ih]

theorem sumSqRange_cons (s : ℚ) (rest : List ℚ) (lo cnt : ℕ) :
    sumSqRange (s :: rest) (lo + 1) cnt = sumSqRange rest lo cnt := by
  induction cnt generalizing lo with
  | zero => rfl
  | succ n ih => simp [sumSqRange, ih, List.getD_cons_succ]

theorem sumSqRange_eq_sumSq (S : List ℚ) (lo cnt : ℕ) :
    sumSqRange S lo cnt = sumSq ((S.take (lo + cnt)).drop lo) := by
  induction lo generalizing S with
  | zero =>
    induction cnt generalizing S with
    | zero => simp [sumSqRange, sumSq]
    | succ n ih =>
      cases S with
      | nil => simp [sumSqRange_nil, sumSq, List.take_nil]
      | cons s rest =>
        simp only [sumSqRange, Nat.zero_add, List.getD_cons_zero, List.take, List.drop, sumSq]
        have h1 : sumSqRange (s :: rest) 1 n = sumSqRange rest 0 n :=
          sumSqRange_cons s rest 0 n
        rw [h1, ih rest]
        simp
  | succ lo ih =>
    cases S with
    | nil => simp [sumSqRange_nil, List.take_nil, sumSq]
    | cons s rest =>
      rw [sumSqRange_cons]
      have h2 : ((s :: rest).take (lo + 1 + cnt)).drop (lo + 1) =
          (rest.take (lo + cnt)).drop lo := by
        have : lo + 1 + cnt = (lo + cnt) + 1 := by omega
        rw [this]
        simp [List.take_succ_cons]
      rw [h2, ih rest]

theorem tailSumSq_eq (S : List ℚ) (lo hi : ℕ) (h : lo ≤ hi) :
    tailSumSq S lo hi = sumSq ((S.take hi).drop lo) := by
  rw [tailSumSq, sumSqRange_eq_sumSq, Nat.add_sub_cancel' h]

theorem sumSq_nonneg (l : List ℚ) : 0 ≤ sumSq l := by
  induction l with
  | nil => simp [sumSq]
  | cons x rest ih => simp only [sumSq]; positivity

theorem sumSqRange_nonneg (S : List ℚ) (lo cnt : ℕ) : 0 ≤ sumSqRange S lo cnt := by
  induction cnt generalizing lo with
  | zero => simp [sumSqRange]
  | succ n ih =>
    simp only [sumSqRange]
    have := ih (lo + 1)
    positivity

theorem tailSumSq_nonneg (S : List ℚ) (lo hi : ℕ) : 0 ≤ tailSumSq S lo hi :=
  sumSqRange_nonneg S lo (hi - lo)

theorem tailSumSq_self (S : List ℚ) (hi : ℕ) : tailSumSq S hi hi = 0 := by
  simp [tailSumSq, sumSqRange]

theorem tailSumSq_step (S : List ℚ) (lo hi : ℕ) (h : lo < hi) :
    tailSumSq S lo hi = (S.getD lo 0) ^ 2 + tailSumSq S (lo + 1) hi := by
  have h1 : hi - lo = (hi - (lo + 1)) + 1 := by omega
  rw [tailSumSq, h1, sumSqRange, tailSumSq]

theorem tailSumSq_antitone (S : List ℚ) (hi : ℕ) :
    ∀ a b, a ≤ b → tailSumSq S b hi ≤ tailSumSq S a hi := by
  intro a b hab
  induction b with
  | zero =>
    have : a = 0 := by omega
    simp [this]
  | succ bb ih =>
    rcases Nat.eq_or_lt_of_le hab with h | h
    · simp [h]
    · have h1 : a ≤ bb := by omega
      refine le_trans ?_ (ih h1)
      by_cases h2 : bb < hi
      · rw [tailSumSq_step S bb hi h2]
        have := sq_nonneg (S.getD bb 0)
        have := tailSumSq_nonneg S (bb + 1) hi
        nlinarith [sq_nonneg (S.getD bb 0)]
      · have h3 : tailSumSq S bb hi = 0 := by
          have : hi - bb = 0 := by omega
          simp [tailSumSq, this, sumSqRange]
        have h4 : tailSumSq S (bb + 1) hi = 0 := by
          have : hi - (bb + 1) = 0 := by omega
          simp [tailSumSq, this, sumSqRange]
        simp [h3, h4]

/-- Exact characterization of the soft-budget sweep (svd.cpp lines 136-144),
by induction on the descending loop index: either the loop runs to
completion (no index failed the budget test, rank stays `n1`), or it broke
at the largest index `ib ≥ 1` whose tail mass reaches the budget, and
returned `ib + 1`. -/
theorem sweepLoop_spec (S : List ℚ) (budget : ℚ) (n1 : ℕ) :
    ∀ i acc, i + 1 ≤ n1 → acc = tailSumSq S (i + 1) n1 →
      (sweepLoop S budget i acc n1 = n1 ∧
        ∀ j, 1 ≤ j → j ≤ i → tailSumSq S j n1 < budget) ∨
      (∃ ib, 1 ≤ ib ∧ ib ≤ i ∧ sweepLoop S budget i acc n1 = ib + 1 ∧
        budget ≤ tailSumSq S ib n1 ∧
        ∀ j, ib < j → j ≤ i → tailSumSq S j n1 < budget) := by
  intro i
  induction i with
  | zero =>
    intro acc _ _
    left
    constructor
    · rfl
    · intro j hj1 hj2; omega
  | succ ii ih =>
    intro acc hle hacc
    have hlt : ii + 1 < n1 := by omega
    have hstep : tailSumSq S (ii + 1) n1 =
        (S.getD (ii + 1) 0) ^ 2 + tailSumSq S (ii + 1 + 1) n1 :=
      tailSumSq_step S (ii + 1) n1 hlt
    by_cases hc : acc + (S.getD (ii + 1) 0) ^ 2 < budget
    · have heq : acc + (S.getD (ii + 1) 0) ^ 2 = tailSumSq S (ii + 1) n1 := by
        rw [hstep, hacc]; ring
      have hrun : sweepLoop S budget (ii + 1) acc n1 =
          sweepLoop S budget ii (acc + (S.getD (ii + 1) 0) ^ 2) n1 := by
        simp only [sweepLoop]
        rw [if_pos hc]
      rcases ih (acc + (S.getD (ii + 1) 0) ^ 2) (by omega) (by rw [heq]) with
        ⟨hres, hall⟩ | ⟨ib, hib1, hib2, hres, hbud, hall⟩
      · left
        refine ⟨by rw [hrun, hres], ?_⟩
        intro j hj1 hj2
        rcases Nat.lt_or_ge j (ii + 1) with h | h
        · exact hall j hj1 (by omega)
        · have : j = ii + 1 := by omega
          rw [this, ← heq]; exact hc
      · right
        refine ⟨ib, hib1, by omega, by rw [hrun, hres], hbud, ?_⟩
        intro j hj1 hj2
        rcases Nat.lt_or_ge j (ii + 1) with h | h
        · exact hall j hj1 (by omega)
        · have : j = ii + 1 := by omega
          rw [this, ← heq]; exact hc
    · right
      refine ⟨ii + 1, by omega, le_refl _, ?_, ?_, ?_⟩
      · simp only [sweepLoop]
        rw [if_neg hc]
      · rw [hacc] at hc
        rw [hstep]
        linarith [not_lt.mp hc]
      · intro j hj1 hj2; omega

theorem newRank_eq_sweep (S : List ℚ) (maxRank : ℕ) (budget : ℚ) :
    newRank S maxRank budget =
      sweepLoop S budget (min (num_of_SV S CHOP_THRESHOLD) maxRank - 1) 0
        (min (num_of_SV S CHOP_THRESHOLD) maxRank) := by
  rw [newRank]
  rcases Nat.lt_or_ge maxRank (num_of_SV S CHOP_THRESHOLD) with h | h
  · simp only [h, if_true]
    rw [min_eq_right (le_of_lt h)]
  · simp only [Nat.not_lt.mpr h, if_false]
    rw [min_eq_left h]

/-- C1: evaluations of the retry wrapper exhibiting the divergence between
the code and the claimed retry contract.  (1) With a `csvd` back-end that
fails on the initial call and on every rescaled retry, the wrapper does NOT
raise: the loop guard `times <= NUM_SVD_TRIES` admits a 16th retry, the
loop exits with `times = 16`, the error check `times == NUM_SVD_TRIES`
(15) is false, and the wrapper returns the S left by the last FAILED
`csvd` call divided by `mul_factor^16`.  (2) With a back-end that succeeds
exactly on the 15th retry, the loop exits with `times = 15` and the
wrapper raises "SVD failed" (modelled by `none`) although `csvd`
succeeded. -/
theorem C1_wrapper_retry_divergence :
    qiskit_csvd_wrapper (fun _ => (false, [1])) =
      some [1 / mul_factorQ ^ 16] ∧
    qiskit_csvd_wrapper (fun j => (decide (j = 15), [1])) = none := by
  constructor
  · rfl
  · rfl

/-- C2 counterexample: on `S = [1, 1e-8, 1e-16, 0]` with `max_rank = 4` and
`truncation_budget = 1e-10` (the claim's own instance, with the upstream
`CHOP_THRESHOLD = 1e-16`), `reduce_zeros` retains rank 1 — `num_of_SV`
counts only entries with square strictly above the chop, so `1e-8` is not
significant — and the returned discarded weight is 0, not `1e-32` as the
claim states (and the retained rank is not 2). -/
theorem C2_counterexample :
    newRank [1, 1 / 10 ^ 8, 1 / 10 ^ 16, 0] 4 (1 / 10 ^ 10) = 1 ∧
    rzDiscarded (reduce_zeros (fun _ => 0) ([] : List (List ℚ))
      [1, 1 / 10 ^ 8, 1 / 10 ^ 16, 0] [] 4 (1 / 10 ^ 10) false) = 0 ∧
    (1 : ℕ) ≠ 2 ∧ (0 : ℚ) ≠ 1 / 10 ^ 32 := by
  have h1 : newRank [1, 1 / 10 ^ 8, 1 / 10 ^ 16, 0] 4 (1 / 10 ^ 10) = 1 := by
    norm_num [newRank, num_of_SV, CHOP_THRESHOLD, sweepLoop, List.getD]
  have h2 : num_of_SV [1, 1 / 10 ^ 8, 1 / 10 ^ 16, 0] CHOP_THRESHOLD = 1 := by
    norm_num [num_of_SV, CHOP_THRESHOLD]
  refine ⟨h1, ?_, by norm_num, by norm_num⟩
  show tailSumSq [1, 1 / 10 ^ 8, 1 / 10 ^ 16, 0]
    (newRank [1, 1 / 10 ^ 8, 1 / 10 ^ 16, 0] 4 (1 / 10 ^ 10))
    (num_of_SV [1, 1 / 10 ^ 8, 1 / 10 ^ 16, 0] CHOP_THRESHOLD) = 0
  rw [h1, h2, tailSumSq_self]

/-- C2 (amended): write `n1 = min(num_of_SV(S, CHOP_THRESHOLD), max_rank)`
and `r = new_SV_num`.  Then (i) `1 ≤ r ≤ n1` (index 0 is never dropped);
(ii) dropping from any index `≥ r` keeps the dropped mass strictly under
the budget; (iii) either `r - 1 ≥ 1` is an index whose tail mass reaches
the budget (so `r` is minimal), or `r = n1` — in particular, when every
tail mass from index 1 on fits strictly under the budget the loop runs to
completion WITHOUT updating the rank: `r = n1` and nothing is dropped, not
`r = 1`; (iv) when some tail mass reaches the budget, `r` is the least rank
whose dropped tail mass is strictly under the budget.  The claim's concrete
instance is corrected by `C2_counterexample`. -/
theorem C2_truncation_rank (S : List ℚ) (maxRank : ℕ) (budget : ℚ)
    (h1 : 1 ≤ min (num_of_SV S CHOP_THRESHOLD) maxRank) :
    1 ≤ newRank S maxRank budget ∧
    newRank S maxRank budget ≤ min (num_of_SV S CHOP_THRESHOLD) maxRank ∧
    (∀ r, newRank S maxRank budget ≤ r →
      r < min (num_of_SV S CHOP_THRESHOLD) maxRank →
      tailSumSq S r (min (num_of_SV S CHOP_THRESHOLD) maxRank) < budget) ∧
    ((1 ≤ newRank S maxRank budget - 1 ∧
        budget ≤ tailSumSq S (newRank S maxRank budget - 1)
          (min (num_of_SV S CHOP_THRESHOLD) maxRank)) ∨
      newRank S maxRank budget = min (num_of_SV S CHOP_THRESHOLD) maxRank) ∧
    (budget ≤ tailSumSq S 1 (min (num_of_SV S CHOP_THRESHOLD) maxRank) →
      ∀ r, 1 ≤ r →
        tailSumSq S r (min (num_of_SV S CHOP_THRESHOLD) maxRank) < budget →
        newRank S maxRank budget ≤ r) := by
  set n1 := min (num_of_SV S CHOP_THRESHOLD) maxRank with hn1
  have hsweep := newRank_eq_sweep S maxRank budget
  rw [← hn1] at hsweep
  have hstart : (n1 - 1) + 1 ≤ n1 := by omega
  have hacc0 : (0 : ℚ) = tailSumSq S ((n1 - 1) + 1) n1 := by
    have : (n1 - 1) + 1 = n1 := by omega
    rw [this, tailSumSq_self]
  rcases sweepLoop_spec S budget n1 (n1 - 1) 0 hstart hacc0 with
    ⟨hres, hall⟩ | ⟨ib, hib1, hib2, hres, hbud, hall⟩
  · have hr : newRank S maxRank budget = n1 := by rw [hsweep, hres]
    refine ⟨by omega, by omega, ?_, Or.inr hr, ?_⟩
    · intro r hr1 hr2
      rw [hr] at hr1; omega
    · intro habove r hrge hlt
      by_contra hcon
      push_neg at hcon
      have h2 : 1 ≤ n1 - 1 := by
        rw [hr] at hcon; omega
      have := hall 1 (le_refl 1) h2
      linarith
  · have hr : newRank S maxRank budget = ib + 1 := by rw [hsweep, hres]
    refine ⟨by omega, by omega, ?_, ?_, ?_⟩
    · intro r hr1 hr2
      rw [hr] at hr1
      exact hall r (by omega) (by omega)
    · left
      constructor
      · omega
      · have : newRank S maxRank budget - 1 = ib := by omega
        rw [this]; exact hbud
    · intro habove r hrge hlt
      rw [hr]
      by_contra hcon
      push_neg at hcon
      have hrib : r ≤ ib := by omega
      have := tailSumSq_antitone S n1 r ib hrib
      linarith

/-- C3 counterexample: on `S = [1, 1e-9]` with `max_rank = 2` and
`truncation_budget = 0`, the entry `1e-9` is below the chop, so
`SV_num = 1` and the retained rank is 1; the entry `1e-9` is dropped by the
resize, yet the discarded-weight loop (which only covers indices in
`[new_SV_num, SV_num)`) returns 0, while the sum of squared magnitudes of
ALL dropped entries is `1e-18`. -/
theorem C3_counterexample :
    rzDiscarded (reduce_zeros (fun _ => 0) ([] : List (List ℚ))
      [1, 1 / 10 ^ 9] [] 2 0 false) = 0 ∧
    sumSq (([1, 1 / 10 ^ 9] : List ℚ).drop (newRank [1, 1 / 10 ^ 9] 2 0)) =
      1 / 10 ^ 18 ∧
    (0 : ℚ) ≠ 1 / 10 ^ 18 := by
  have h1 : newRank [1, 1 / 10 ^ 9] 2 0 = 1 := by
    norm_num [newRank, num_of_SV, CHOP_THRESHOLD, sweepLoop, List.getD]
  have h2 : num_of_SV [1, 1 / 10 ^ 9] CHOP_THRESHOLD = 1 := by
    norm_num [num_of_SV, CHOP_THRESHOLD]
  refine ⟨?_, ?_, by norm_num⟩
  · show tailSumSq [1, 1 / 10 ^ 9] (newRank [1, 1 / 10 ^ 9] 2 0)
      (num_of_SV [1, 1 / 10 ^ 9] CHOP_THRESHOLD) = 0
    rw [h1, h2, tailSumSq_self]
  · rw [h1]
    norm_num [sumSq]

/-- C3 (amended): the value returned by `reduce_zeros` equals the sum of
squared magnitudes of the dropped SIGNIFICANT singular values — those with
index in `[new_SV_num, num_of_SV(S, CHOP_THRESHOLD))` — taken from the
original `S` (the code reads the shrunk vector past its size; the storage
still holds the original values).  Dropped entries at indices at or above
`num_of_SV(S, CHOP_THRESHOLD)` are not counted, even when nonzero. -/
theorem C3_discarded_weight {α : Type} (sqrtf : ℚ → ℚ) (U V : List (List α))
    (S : List ℚ) (maxRank : ℕ) (budget : ℚ) (lapack : Bool) :
    rzDiscarded (reduce_zeros sqrtf U S V maxRank budget lapack) =
      sumSq ((S.take (num_of_SV S CHOP_THRESHOLD)).drop
        (newRank S maxRank budget)) := by
  have hrank : newRank S maxRank budget ≤ num_of_SV S CHOP_THRESHOLD := by
    rcases le_or_lt 1 (min (num_of_SV S CHOP_THRESHOLD) maxRank) with h | h
    · have := (C2_truncation_rank S maxRank budget h).2.1
      omega
    · have hmin : min (num_of_SV S CHOP_THRESHOLD) maxRank = 0 := by omega
      have : newRank S maxRank budget = 0 := by
        rw [newRank_eq_sweep, hmin]
        rfl
      omega
  rw [show rzDiscarded (reduce_zeros sqrtf U S V maxRank budget lapack) =
    tailSumSq S (newRank S maxRank budget) (num_of_SV S CHOP_THRESHOLD) from rfl]
  exact tailSumSq_eq S _ _ hrank

/-- C2 witness: the amended sweep characterization applied at the claim's
own concrete input (where `min(num_of_SV, max_rank) = 1`). -/
theorem C2_truncation_rank_witness :
    1 ≤ newRank [1, 1 / 10 ^ 8, 1 / 10 ^ 16, 0] 4 (1 / 10 ^ 10) ∧
    newRank [1, 1 / 10 ^ 8, 1 / 10 ^ 16, 0] 4 (1 / 10 ^ 10) ≤
      min (num_of_SV [1, 1 / 10 ^ 8, 1 / 10 ^ 16, 0] CHOP_THRESHOLD) 4 :=
  ⟨(C2_truncation_rank [1, 1 / 10 ^ 8, 1 / 10 ^ 16, 0] 4 (1 / 10 ^ 10)
      (by norm_num [num_of_SV, CHOP_THRESHOLD])).1,
   (C2_truncation_rank [1, 1 / 10 ^ 8, 1 / 10 ^ 16, 0] 4 (1 / 10 ^ 10)
      (by norm_num [num_of_SV, CHOP_THRESHOLD])).2.1⟩

theorem sumSq_map_div (l : List ℚ) (c : ℚ) :
    sumSq (l.map (fun x => x / c)) = sumSq l / c ^ 2 := by
  induction l with
  | nil => simp [sumSq]
  | cons x rest ih =>
    simp only [List.map_cons, sumSq, ih]
    rw [div_pow, div_add_div_same]

/-- C4 counterexample: on input `S = [1e-9]` (with `max_rank = 1`,
`truncation_budget = 0`) every entry is below the chop, the retained rank
is 0, `S` is resized to the empty vector, and after `reduce_zeros` returns
the retained sum of squares is 0: `|1 - Σ Sᵢ²| = 1 > THRESHOLD`, so the
claimed post-normalization invariant fails for this input. -/
theorem C4_counterexample :
    rzS (reduce_zeros (fun _ => 0) ([] : List (List ℚ)) [1 / 10 ^ 9] [] 1 0
      false) = [] ∧
    ¬ |1 - sumSq (rzS (reduce_zeros (fun _ => 0) ([] : List (List ℚ))
      [1 / 10 ^ 9] [] 1 0 false))| ≤ THRESHOLDQ := by
  have h0 : newRank [1 / 10 ^ 9] 1 0 = 0 := by
    norm_num [newRank, num_of_SV, CHOP_THRESHOLD, sweepLoop]
  have h1 : rzS (reduce_zeros (fun _ => (0 : ℚ)) ([] : List (List ℚ))
      [1 / 10 ^ 9] [] 1 0 false) = [] := by
    show (if ¬ almostEqualQ (1 - sumSq (([1 / 10 ^ 9] : List ℚ).take
        (newRank [1 / 10 ^ 9] 1 0))) 0 THRESHOLDQ
      then (([1 / 10 ^ 9] : List ℚ).take (newRank [1 / 10 ^ 9] 1 0)).map
        (fun x => x / (fun _ => (0 : ℚ)) (sumSq (([1 / 10 ^ 9] : List ℚ).take
          (newRank [1 / 10 ^ 9] 1 0))))
      else ([1 / 10 ^ 9] : List ℚ).take (newRank [1 / 10 ^ 9] 1 0)) = []
    rw [h0]
    norm_num [almostEqualQ, sumSq, THRESHOLDQ]
  refine ⟨h1, ?_⟩
  rw [h1]
  norm_num [sumSq, THRESHOLDQ]

/-- C4 (amended): whenever the retained prefix of `S` has a positive sum of
squares (in particular whenever `S` has a significant leading entry and
`max_rank ≥ 1`), and `sqrtf` models `std::sqrt` exactly at the point where
it is called, the returned `S` satisfies `|1 - Σ Sᵢ²| ≤ THRESHOLD`: the
code divides every surviving entry by `√s2` when `|1 - s2| > THRESHOLD`
(making the sum exactly 1 in exact arithmetic) and otherwise leaves `S`
as-is.  When the retained rank is 0 the invariant fails
(`C4_counterexample`). -/
theorem C4_renormalization {α : Type} (sqrtf : ℚ → ℚ) (U V : List (List α))
    (S : List ℚ) (maxRank : ℕ) (budget : ℚ) (lapack : Bool)
    (h1 : 0 < sumSq (S.take (newRank S maxRank budget)))
    (h2 : sqrtf (sumSq (S.take (newRank S maxRank budget))) ^ 2 =
      sumSq (S.take (newRank S maxRank budget))) :
    |1 - sumSq (rzS (reduce_zeros sqrtf U S V maxRank budget lapack))| ≤
      THRESHOLDQ ∧
    (¬ almostEqualQ (1 - sumSq (S.take (newRank S maxRank budget))) 0
        THRESHOLDQ →
      rzS (reduce_zeros sqrtf U S V maxRank budget lapack) =
        (S.take (newRank S maxRank budget)).map
          (fun x => x / sqrtf (sumSq (S.take (newRank S maxRank budget))))) ∧
    (almostEqualQ (1 - sumSq (S.take (newRank S maxRank budget))) 0
        THRESHOLDQ →
      rzS (reduce_zeros sqrtf U S V maxRank budget lapack) =
        S.take (newRank S maxRank budget)) := by
  have hrz : rzS (reduce_zeros sqrtf U S V maxRank budget lapack) =
      (if ¬ almostEqualQ (1 - sumSq (S.take (newRank S maxRank budget))) 0
          THRESHOLDQ
        then (S.take (newRank S maxRank budget)).map
          (fun x => x / sqrtf (sumSq (S.take (newRank S maxRank budget))))
        else S.take (newRank S maxRank budget)) := rfl
  by_cases hc : almostEqualQ (1 - sumSq (S.take (newRank S maxRank budget))) 0
      THRESHOLDQ
  · rw [hrz, if_neg (not_not_intro hc)]
    refine ⟨?_, fun hcon => absurd hc hcon, fun _ => rfl⟩
    have := (almostEqualQ_iff _ _ _).mp hc
    simpa using this
  · rw [hrz, if_pos hc]
    refine ⟨?_, fun _ => rfl, fun hcon => absurd hcon hc⟩
    rw [sumSq_map_div, h2, div_self (ne_of_gt h1)]
    norm_num [THRESHOLDQ]

/-- C4 witness: on `S = [1/2]` the retained sum of squares is `1/4 > 0`,
`sqrt(1/4) = 1/2` exactly, and the renormalized sum of squares is exactly
1, within THRESHOLD of 1. -/
theorem C4_renormalization_witness :
    |1 - sumSq (rzS (reduce_zeros (fun _ => 1 / 2) ([] : List (List ℚ))
      [1 / 2] [] 1 0 false))| ≤ THRESHOLDQ := by
  have h0 : newRank [1 / 2] 1 0 = 1 := by
    norm_num [newRank, num_of_SV, CHOP_THRESHOLD, sweepLoop]
  exact (C4_renormalization (fun _ => 1 / 2) [] [] [1 / 2] 1 0 false
    (by rw [h0]; norm_num [sumSq])
    (by rw [h0]; norm_num [sumSq])).1

theorem num_of_SV_all_sig (S : List ℚ)
    (h : ∀ x ∈ S, CHOP_THRESHOLD < x ^ 2) :
    num_of_SV S CHOP_THRESHOLD = S.length := by
  induction S with
  | nil => rfl
  | cons x rest ih =>
    have hx : CHOP_THRESHOLD < x ^ 2 := h x (List.mem_cons_self x rest)
    simp only [num_of_SV, if_pos hx, List.length_cons]
    rw [ih (fun y hy => h y (List.mem_cons_of_mem x hy))]
    omega

theorem sweepLoop_budget_nonpos (S : List ℚ) (budget : ℚ)
    (hb : budget ≤ 0) (cur : ℕ) :
    ∀ i acc, 0 ≤ acc → sweepLoop S budget i acc cur =
      (if i = 0 then cur else i + 1) := by
  intro i acc hacc
  cases i with
  | zero => rfl
  | succ ii =>
    have hge : ¬ acc + (S.getD (ii + 1) 0) ^ 2 < budget := by
      have := sq_nonneg (S.getD (ii + 1) 0)
      push_neg
      nlinarith
    simp only [sweepLoop]
    rw [if_neg hge]
    simp

theorem newRank_budget_zero (S : List ℚ) (maxRank : ℕ)
    (hsig : ∀ x ∈ S, CHOP_THRESHOLD < x ^ 2) (hmax : S.length ≤ maxRank) :
    newRank S maxRank 0 = S.length := by
  rw [newRank_eq_sweep, num_of_SV_all_sig S hsig, min_eq_left hmax]
  rw [sweepLoop_budget_nonpos S 0 (le_refl 0) S.length (S.length - 1) 0
    (le_refl 0)]
  rcases Nat.lt_or_ge S.length 2 with h | h
  · interval_cases hl : S.length <;> simp
  · rw [if_neg (by omega)]
    omega

/-- C6 counterexample: on the triple `U = [[1,2],[3,4]]`, `S = [1, 1e-9]`,
`V = [[5,6],[7,8]]` with `max_rank = 2 ≥ len(S)`, `truncation_budget = 0`
and `|1 - Σ Sᵢ²| = 1e-18 ≤ THRESHOLD`, `reduce_zeros` does NOT leave the
triple unchanged: the entry `1e-9` is below the chop, so `SV_num = 1` and
`U`, `S`, `V` are all truncated to rank 1 (the returned discarded weight is
still 0). -/
theorem C6_counterexample :
    reduce_zeros (fun _ => 0) [[(1 : ℚ), 2], [3, 4]] [1, 1 / 10 ^ 9]
      [[5, 6], [7, 8]] 2 0 false = ([[1], [3]], [1], [[5], [7]], 0) ∧
    |1 - sumSq [1, 1 / 10 ^ 9]| ≤ THRESHOLDQ ∧
    ([1] : List ℚ) ≠ [1, 1 / 10 ^ 9] := by
  have h0 : newRank [1, 1 / 10 ^ 9] 2 0 = 1 := by
    norm_num [newRank, num_of_SV, CHOP_THRESHOLD, sweepLoop]
  have h2 : num_of_SV [1, 1 / 10 ^ 9] CHOP_THRESHOLD = 1 := by
    norm_num [num_of_SV, CHOP_THRESHOLD]
  refine ⟨?_, by norm_num [sumSq, THRESHOLDQ, abs_le], by simp⟩
  show ([[(1 : ℚ), 2], [3, 4]].map (fun row => row.take
        (newRank [1, 1 / 10 ^ 9] 2 0)),
      (if ¬ almostEqualQ (1 - sumSq (([1, 1 / 10 ^ 9] : List ℚ).take
          (newRank [1, 1 / 10 ^ 9] 2 0))) 0 THRESHOLDQ
        then (([1, 1 / 10 ^ 9] : List ℚ).take
          (newRank [1, 1 / 10 ^ 9] 2 0)).map (fun x => x / (0 : ℚ))
        else ([1, 1 / 10 ^ 9] : List ℚ).take (newRank [1, 1 / 10 ^ 9] 2 0)),
      [[(5 : ℚ), 6], [7, 8]].map (fun row => row.take
        (newRank [1, 1 / 10 ^ 9] 2 0)),
      tailSumSq [1, 1 / 10 ^ 9] (newRank [1, 1 / 10 ^ 9] 2 0)
        (num_of_SV [1, 1 / 10 ^ 9] CHOP_THRESHOLD)) =
    ([[1], [3]], [1], [[5], [7]], 0)
  rw [h0, h2, tailSumSq_self]
  norm_num [almostEqualQ, sumSq, THRESHOLDQ]

/-- C6 (amended): `reduce_zeros` with `max_rank ≥ len(S)` and
`truncation_budget = 0` leaves `(U, S, V)` unchanged and returns discarded
weight 0, PROVIDED every entry of `S` is significant
(`|Sᵢ|² > CHOP_THRESHOLD`) — otherwise the insignificant tail is truncated
away even at budget 0 (`C6_counterexample`) — the rows of `U` (and of `V`
in the `v_is_dagger = false` convention; the row count of `V` otherwise)
do not exceed `len(S)`, and `|1 - Σ Sᵢ²| ≤ THRESHOLD` so the
renormalization is skipped. -/
theorem C6_rank_idempotence {α : Type} (sqrtf : ℚ → ℚ)
    (U V : List (List α)) (S : List ℚ) (maxRank : ℕ) (lapack : Bool)
    (hsig : ∀ x ∈ S, CHOP_THRESHOLD < x ^ 2)
    (hmax : S.length ≤ maxRank)
    (hnorm : |1 - sumSq S| ≤ THRESHOLDQ)
    (hU : ∀ row ∈ U, row.length ≤ S.length)
    (hV : if lapack then V.length ≤ S.length
      else ∀ row ∈ V, row.length ≤ S.length) :
    reduce_zeros sqrtf U S V maxRank 0 lapack = (U, S, V, 0) := by
  have h0 : newRank S maxRank 0 = S.length :=
    newRank_budget_zero S maxRank hsig hmax
  have h2 : num_of_SV S CHOP_THRESHOLD = S.length := num_of_SV_all_sig S hsig
  have htake : S.take (newRank S maxRank 0) = S := by
    rw [h0, List.take_length]
  have hae : almostEqualQ (1 - sumSq S) 0 THRESHOLDQ = true := by
    rw [almostEqualQ_iff]
    simpa using hnorm
  show (U.map (fun row => row.take (newRank S maxRank 0)),
      (if ¬ almostEqualQ (1 - sumSq (S.take (newRank S maxRank 0))) 0
          THRESHOLDQ
        then (S.take (newRank S maxRank 0)).map
          (fun x => x / sqrtf (sumSq (S.take (newRank S maxRank 0))))
        else S.take (newRank S maxRank 0)),
      (if lapack then V.take (newRank S maxRank 0)
        else V.map (fun row => row.take (newRank S maxRank 0))),
      tailSumSq S (newRank S maxRank 0) (num_of_SV S CHOP_THRESHOLD)) =
    (U, S, V, 0)
  rw [htake, h0, h2, tailSumSq_self, if_neg (not_not_intro hae)]
  have hUeq : U.map (fun row => row.take S.length) = U := by
    conv_rhs => rw [← List.map_id U]
    refine List.map_congr_left ?_
    intro row hrow
    simpa using List.take_of_length_le (hU row hrow)
  have hVeq : (if lapack then V.take S.length
      else V.map (fun row => row.take S.length)) = V := by
    cases lapack with
    | true =>
      rw [if_pos rfl]
      exact List.take_of_length_le (by simpa using hV)
    | false =>
      rw [if_neg Bool.false_ne_true]
      conv_rhs => rw [← List.map_id V]
      refine List.map_congr_left ?_
      intro row hrow
      have hV2 : ∀ row ∈ V, row.length ≤ S.length := by simpa using hV
      simpa using List.take_of_length_le (hV2 row hrow)
  rw [hUeq, hVeq]

/-- C6 witness: the amended idempotence applied to the concrete triple
`U = [[1,2],[3,4]]`, `S = [3/5, 4/5]` (all entries significant, exactly
normalized), `V = [[5,6],[7,8]]`, `max_rank = 2`, budget 0. -/
theorem C6_rank_idempotence_witness :
    reduce_zeros (fun _ => 0) [[(1 : ℚ), 2], [3, 4]] [3 / 5, 4 / 5]
      [[5, 6], [7, 8]] 2 0 false =
      ([[(1 : ℚ), 2], [3, 4]], [3 / 5, 4 / 5], [[5, 6], [7, 8]], 0) :=
  C6_rank_idempotence (fun _ => 0) [[(1 : ℚ), 2], [3, 4]] [[5, 6], [7, 8]]
    [3 / 5, 4 / 5] 2 false
    (by intro x hx; simp only [List.mem_cons, List.not_mem_nil, or_false] at hx
        rcases hx with h | h <;> rw [h] <;> norm_num [CHOP_THRESHOLD])
    (by simp)
    (by norm_num [sumSq, THRESHOLDQ])
    (by intro row hrow; simp only [List.mem_cons, List.not_mem_nil, or_false] at hrow
        rcases hrow with h | h <;> rw [h] <;> simp)
    (by simp only [if_neg Bool.false_ne_true]
        intro row hrow
        simp only [List.mem_cons, List.not_mem_nil, or_false] at hrow
        rcases hrow with h | h <;> rw [h] <;> simp)

theorem anyIdx_iff (P : ℕ → Prop) (n : ℕ) :
    anyIdx P n ↔ ∃ i, i < n ∧ P i := by
  induction n with
  | zero => simp [anyIdx]
  | succ m ih =>
    simp only [anyIdx, ih]
    constructor
    · rintro (⟨i, hi, hp⟩ | hp)
      · exact ⟨i, by omega, hp⟩
      · exact ⟨m, by omega, hp⟩
    · rintro ⟨i, hi, hp⟩
      rcases Nat.lt_or_ge i m with h | h
      · exact Or.inl ⟨i, h, hp⟩
      · have : i = m := by omega
        exact Or.inr (this ▸ hp)

/-- C9 counterexample: `diag([], 1, 1)` reads `S[0]` on a vector of length
0 (the loop body evaluates `S[i]` whenever `i == j`, with no `i < |S|`
guard), so the call has no defined result — whereas the claim says it
returns the 1×1 zero matrix (diagonal positions `i ≥ |S|` "zero"). -/
theorem C9_counterexample : diag [] 1 1 = none := by
  rw [diag, if_neg]
  simp

/-- C9 (amended): provided `min(m, n) ≤ |S|` — so that every `S[i]` read
by the loop is in range — `diag(S, m, n)` returns the m×n matrix whose
entry `(i, j)` is `S_i` when `i = j` (necessarily `i < min(m, n, |S|)`)
and zero everywhere else.  Without that proviso the code reads `S` out of
bounds (`C9_counterexample`); the claim's guard `i < |S|` does not exist
in the code. -/
theorem C9_diag (S : List ℝ) (m n : ℕ) (h : min m n ≤ S.length) :
    diag S m n = some (diagM S m n) ∧
    (diagM S m n).rows = m ∧ (diagM S m n).cols = n ∧
    ∀ i j, i < m → j < n →
      (i = j → (diagM S m n).f i j = ((S.getD i 0 : ℝ) : ℂ)) ∧
      (i ≠ j → (diagM S m n).f i j = 0) := by
  refine ⟨by rw [diag, if_pos h], rfl, rfl, ?_⟩
  intro i j _ _
  constructor
  · intro hij
    simp [diagM, hij]
  · intro hij
    simp [diagM, hij]

/-- C9 witness: the amended characterization applied at `S = [1]`,
`m = n = 1`. -/
theorem C9_diag_witness :
    diag [(1 : ℝ)] 1 1 = some (diagM [(1 : ℝ)] 1 1) :=
  (C9_diag [(1 : ℝ)] 1 1 (by simp)).1

/-- C8: `validate_SVD_result(A, U, S, V)` raises an error if and only if
some index pair `(i, j)` with `i < rows(A)`, `j < cols(A)` has
`| |A(i,j)| − |P(i,j)| | > THRESHOLD` where
`P = U · diag(S, rows, cols) · V†`; it compares element magnitudes only,
and (being modelled as a pure predicate over const-reference arguments)
modifies none of its arguments.  The hypothesis `min(rows, cols) ≤ |S|`
makes `diag`'s reads in range (see C9). -/
theorem C8_validator (A U : CM) (S : List ℝ) (V : CM)
    (h : min A.rows A.cols ≤ S.length) :
    validate_SVD_raises A U S V ↔
      ∃ i, i < A.rows ∧ ∃ j, j < A.cols ∧
        THRESHOLDR < |Complex.abs (A.f i j) -
          Complex.abs ((matMul (matMul U (diagM S A.rows A.cols))
            (dagger V)).f i j)| := by
  rw [validate_SVD_raises]
  constructor
  · rintro ⟨D, hD, hany⟩
    rw [diag, if_pos h] at hD
    have hDD : D = diagM S A.rows A.cols := by
      injection hD.symm
    subst hDD
    rw [anyIdx_iff] at hany
    obtain ⟨i, hi, hrow⟩ := hany
    rw [anyIdx_iff] at hrow
    obtain ⟨j, hj, hcell⟩ := hrow
    rw [almostEqualR] at hcell
    exact ⟨i, hi, j, hj, lt_of_not_le hcell⟩
  · rintro ⟨i, hi, j, hj, hgt⟩
    refine ⟨diagM S A.rows A.cols, by rw [diag, if_pos h], ?_⟩
    rw [anyIdx_iff]
    refine ⟨i, hi, ?_⟩
    rw [anyIdx_iff]
    refine ⟨j, hj, ?_⟩
    rw [almostEqualR]
    exact not_le_of_lt hgt

/-- C8 witness: the iff applied at the concrete 1×1 all-zero instance
`A = [[0]]`, `U = [[0]]`, `S = [0]`, `V = [[0]]`. -/
theorem C8_validator_witness :
    validate_SVD_raises ⟨1, 1, fun _ _ => 0⟩ ⟨1, 1, fun _ _ => 0⟩ [(0 : ℝ)]
        ⟨1, 1, fun _ _ => 0⟩ ↔
      ∃ i, i < (1 : ℕ) ∧ ∃ j, j < (1 : ℕ) ∧
        THRESHOLDR < |Complex.abs ((fun (_ _ : ℕ) => (0 : ℂ)) i j) -
          Complex.abs ((matMul (matMul ⟨1, 1, fun _ _ => 0⟩
            (diagM [(0 : ℝ)] 1 1)) (dagger ⟨1, 1, fun _ _ => 0⟩)).f i j)| :=
  C8_validator ⟨1, 1, fun _ _ => 0⟩ ⟨1, 1, fun _ _ => 0⟩ [(0 : ℝ)]
    ⟨1, 1, fun _ _ => 0⟩ (by simp)

theorem SKept.rfl {n : ℕ} {S : List ℝ} : SKept n S S := ⟨Eq.refl _, Eq.refl _⟩

theorem SKept.trans {n : ℕ} {a b c : List ℝ} (h1 : SKept n a b)
    (h2 : SKept n b c) : SKept n a c :=
  ⟨h2.1.trans h1.1, h2.2.trans h1.2⟩

theorem getD_set_self_of_lt {α : Type} (l : List α) (i : ℕ) (a d : α)
    (h : i < l.length) : (l.set i a).getD i d = a := by
  simp [List.getD_eq_getElem?_getD, List.getElem?_set_self h]

theorem getD_set_ne {α : Type} (l : List α) (i j : ℕ) (a d : α)
    (h : i ≠ j) : (l.set i a).getD j d = l.getD j d := by
  simp [List.getD_eq_getElem?_getD, List.getElem?_set_ne h]

theorem drop_set_of_lt {α : Type} (l : List α) (i n : ℕ) (v : α)
    (h : i < n) : (l.set i v).drop n = l.drop n := by
  induction l generalizing i n with
  | nil => simp
  | cons x xs ih =>
    cases i with
    | zero =>
      cases n with
      | zero => omega
      | succ m => simp
    | succ ii =>
      cases n with
      | zero => omega
      | succ m =>
        simp only [List.set_cons_succ, List.drop_succ_cons]
        exact ih ii m (by omega)

theorem SKept.set {n : ℕ} {S : List ℝ} (i : ℕ) (v : ℝ) (h : i < n) :
    SKept n S (S.set i v) :=
  ⟨List.length_set S i v ▸ Eq.refl _, drop_set_of_lt S i n v h⟩

theorem deflScan_le (S t : List ℝ) (eps : ℝ) :
    ∀ l0 jl, deflScan S t eps l0 = some jl → jl.2 ≤ l0 := by
  intro l0
  induction l0 with
  | zero =>
    intro jl h
    rw [deflScan] at h
    by_cases hc : |t.getD 0 0| < eps
    · rw [if_pos hc] at h
      injection h with h2
      cases h2
      simp
    · rw [if_neg hc] at h
      exact absurd h (by simp)
  | succ l ih =>
    intro jl h
    rw [deflScan] at h
    by_cases hc : |t.getD (l + 1) 0| < eps
    · rw [if_pos hc] at h
      injection h with h2
      cases h2
      simp
    · rw [if_neg hc] at h
      by_cases hc2 : |S.getD l 0| < eps
      · rw [if_pos hc2] at h
        injection h with h2
        cases h2
        simp
      · rw [if_neg hc2] at h
        have := ih jl h
        omega

theorem prepLoop_SKept (eps : ℝ) (n l1 : ℕ) :
    ∀ cnt i cs sn st, i + cnt ≤ n →
      SKept n st.S (prepLoop eps n l1 i cnt cs sn st).S := by
  intro cnt
  induction cnt with
  | zero =>
    intro i cs sn st _
    exact SKept.rfl
  | succ cc ih =>
    intro i cs sn st h
    simp only [prepLoop]
    split
    · exact SKept.rfl
    · have hi : i < n := by omega
      exact SKept.trans (SKept.set i _ hi) (ih (i + 1) _ _ _ (by omega))

theorem chaseLoop_SKept (eps : ℝ) (n : ℕ) :
    ∀ cnt i cs sn f x st, 1 ≤ i → i + cnt ≤ n + 1 →
      (∀ f2 x2 st2,
        chaseLoop eps n i cnt cs sn f x st = ChaseRes.done f2 x2 st2 →
        SKept n st.S st2.S) ∧
      (∀ SS, chaseLoop eps n i cnt cs sn f x st = ChaseRes.failS SS →
        SKept n st.S SS) := by
  intro cnt
  induction cnt with
  | zero =>
    intro i cs sn f x st _ _
    constructor
    · intro f2 x2 st2 h
      rw [chaseLoop] at h
      injection h with h1 h2 h3
      rw [← h3]
      exact SKept.rfl
    · intro SS h
      rw [chaseLoop] at h
      exact absurd h (by simp)
  | succ cc ih =>
    intro i cs sn f x st hi h
    have him : i - 1 < n := by omega
    constructor
    · intro f2 x2 st2 hres
      rw [chaseLoop] at hres
      split at hres <;> split at hres
      · exact absurd hres (by simp)
      · exact SKept.trans (SKept.set (i - 1) _ him)
          ((ih (i + 1) _ _ _ _ _ (by omega) (by omega)).1 f2 x2 st2 hres)
      · exact absurd hres (by simp)
      · exact SKept.trans (SKept.set (i - 1) _ him)
          ((ih (i + 1) _ _ _ _ _ (by omega) (by omega)).1 f2 x2 st2 hres)
    · intro SS hres
      rw [chaseLoop] at hres
      split at hres <;> split at hres
      · injection hres with h1
        rw [← h1]
        exact SKept.rfl
      · exact SKept.trans (SKept.set (i - 1) _ him)
          ((ih (i + 1) _ _ _ _ _ (by omega) (by omega)).2 SS hres)
      · injection hres with h1
        rw [← h1]
        exact SKept.rfl
      · exact SKept.trans (SKept.set (i - 1) _ him)
          ((ih (i + 1) _ _ _ _ _ (by omega) (by omega)).2 SS hres)



theorem innerKept_trans {n : ℕ} {a b : List ℝ} {r : InnerRes}
    (h1 : SKept n a b) (h2 : innerKept n b r) : innerKept n a r := by
  cases r with
  | brk w st1 => exact SKept.trans h1 h2
  | failS SS => exact SKept.trans h1 h2
  | oob => trivial
  | noFuel => trivial

theorem innerWhile_SKept (eps : ℝ) (n k : ℕ) (hk : k < n) :
    ∀ fuel st, innerKept n st.S (innerWhile eps n k fuel st) := by
  intro fuel
  induction fuel with
  | zero =>
    intro st
    rw [innerWhile]
    trivial
  | succ ff ih =>
    intro st
    rw [innerWhile]
    split
    · trivial
    · rename_i jl hscan
      have hlk : jl.2 ≤ k := deflScan_le st.S st.t eps k jl hscan
      have hbody : ∀ st0 : P2St, SKept n st.S st0.S →
          innerKept n st.S
            (if jl.2 = k then InnerRes.brk (st0.S.getD k 0) st0
              else
                match chaseLoop eps n (jl.2 + 1) (k - jl.2) 1 1
                    (shiftF (st0.S.getD jl.2 0) (st0.S.getD (k - 1) 0)
                      (st0.t.getD (k - 1) 0) (st0.t.getD k 0)
                      (st0.S.getD k 0))
                    (st0.S.getD jl.2 0) st0 with
                | ChaseRes.failS SS => InnerRes.failS SS
                | ChaseRes.done f2 x2 st2 =>
                  innerWhile eps n k ff
                    ⟨st2.S.set k x2, (st2.t.set jl.2 0).set k f2,
                      st2.U, st2.V⟩) := by
        intro st0 h0
        split
        · exact h0
        · rename_i hlke
          split
          · rename_i SSc hcr
            have hch := (chaseLoop_SKept eps n (k - jl.2) (jl.2 + 1)
              1 1 _ _ _ (by omega) (by omega)).2 SSc hcr
            exact SKept.trans h0 hch
          · rename_i f2 x2 st2 hcr
            have hch := (chaseLoop_SKept eps n (k - jl.2) (jl.2 + 1)
              1 1 _ _ _ (by omega) (by omega)).1 f2 x2 st2 hcr
            have hrec := ih ⟨st2.S.set k x2, (st2.t.set jl.2 0).set k f2,
              st2.U, st2.V⟩
            exact innerKept_trans
              (SKept.trans h0 (SKept.trans hch (SKept.set k x2 hk))) hrec
      split
      · exact hbody st SKept.rfl
      · exact hbody (prepLoop eps n (jl.2 - 1) jl.2 (k - jl.2 + 1) 0 1 st)
          (prepLoop_SKept eps n (jl.2 - 1) (k - jl.2 + 1) jl.2 0 1 st
            (by omega))

theorem p2Kept_trans {n : ℕ} {a b : List ℝ} {r : P2Res}
    (h1 : SKept n a b) (h2 : p2Kept n b r) : p2Kept n a r := by
  cases r with
  | ok st => exact SKept.trans h1 h2
  | failS SS => exact SKept.trans h1 h2
  | oob => trivial
  | noFuel => trivial

theorem outerLoop_SKept (eps : ℝ) (n fuel : ℕ) :
    ∀ kk st, kk ≤ n → p2Kept n st.S (outerLoop eps n fuel kk st) := by
  intro kk
  induction kk with
  | zero =>
    intro st _
    rw [outerLoop]
    exact SKept.rfl
  | succ kkp ih =>
    intro st hkk
    have hklt : kkp < n := by omega
    rw [outerLoop]
    split
    · rename_i w st1 hin
      have h1 : SKept n st.S st1.S := by
        have h2 := innerWhile_SKept eps n kkp hklt fuel st
        rw [hin] at h2
        exact h2
      split
      · exact p2Kept_trans (SKept.trans h1 (SKept.set kkp (-w) hklt))
          (ih _ (by omega))
      · exact p2Kept_trans h1 (ih _ (by omega))
    · rename_i SS hin
      have h2 := innerWhile_SKept eps n kkp hklt fuel st
      rw [hin] at h2
      exact h2
    · trivial
    · trivial

theorem selMaxLoop_j_bound (S : List ℝ) (n : ℕ) :
    ∀ cnt i g j, j < n → i + cnt ≤ n → (selMaxLoop S i cnt g j).2 < n := by
  intro cnt
  induction cnt with
  | zero =>
    intro i g j hj _
    exact hj
  | succ cc ih =>
    intro i g j hj h
    rw [selMaxLoop]
    split
    · exact ih (i + 1) _ i (by omega) (by omega)
    · exact ih (i + 1) _ j hj (by omega)

theorem sortPass_SKept (n k : ℕ) (st : P2St) (hk : k < n) :
    SKept n st.S (sortPass n k st).S := by
  rw [sortPass]
  have hj : (selMaxLoop st.S k (n - k) (-1) k).2 < n :=
    selMaxLoop_j_bound st.S n (n - k) k (-1) k hk (by omega)
  split
  · exact SKept.trans (SKept.set _ _ hj) (SKept.set k _ hk)
  · exact SKept.rfl

theorem sortLoop_SKept (n : ℕ) :
    ∀ cnt k st, k + cnt ≤ n → SKept n st.S (sortLoop n k cnt st).S := by
  intro cnt
  induction cnt with
  | zero =>
    intro k st _
    exact SKept.rfl
  | succ cc ih =>
    intro k st h
    rw [sortLoop]
    exact SKept.trans (sortPass_SKept n k st (by omega))
      (ih (k + 1) _ (by omega))

theorem iterSetFrom_len (vals : List ℝ) :
    ∀ cnt lo (S : List ℝ),
      (iterRange (fun k (SS : List ℝ) => SS.set k (vals.getD k 0)) lo cnt
        S).length = S.length := by
  intro cnt
  induction cnt with
  | zero =>
    intro lo S
    rfl
  | succ cc ih =>
    intro lo S
    rw [iterRange, ih]
    exact List.length_set S lo _

theorem iterSetFrom_drop (vals : List ℝ) (n : ℕ) :
    ∀ cnt lo (S : List ℝ), lo + cnt ≤ n →
      (iterRange (fun k (SS : List ℝ) => SS.set k (vals.getD k 0)) lo cnt
        S).drop n = S.drop n := by
  intro cnt
  induction cnt with
  | zero =>
    intro lo S _
    rfl
  | succ cc ih =>
    intro lo S h
    rw [iterRange, ih (lo + 1) _ (by omega), drop_set_of_lt S lo n _ (by omega)]

theorem iterSetFrom_getD_lo (vals : List ℝ) :
    ∀ cnt lo (S : List ℝ) j d, j < lo →
      (iterRange (fun k (SS : List ℝ) => SS.set k (vals.getD k 0)) lo cnt
        S).getD j d = S.getD j d := by
  intro cnt
  induction cnt with
  | zero =>
    intro lo S j d _
    rfl
  | succ cc ih =>
    intro lo S j d hj
    rw [iterRange, ih (lo + 1) _ j d (by omega),
      getD_set_ne S lo j _ d (by omega)]

theorem iterSetFrom_getD (vals : List ℝ) :
    ∀ cnt lo (S : List ℝ) j d, lo ≤ j → j < lo + cnt → j < S.length →
      (iterRange (fun k (SS : List ℝ) => SS.set k (vals.getD k 0)) lo cnt
        S).getD j d = vals.getD j 0 := by
  intro cnt
  induction cnt with
  | zero =>
    intro lo S j d h1 h2 _
    omega
  | succ cc ih =>
    intro lo S j d h1 h2 h3
    rcases Nat.lt_or_ge lo j with h | h
    · rw [iterRange]
      exact ih (lo + 1) _ j d (by omega) (by omega) (by simp [h3])
    · have hj : j = lo := by omega
      subst hj
      rw [iterRange, iterSetFrom_getD_lo vals cc (j + 1) _ j d (by omega)]
      exact getD_set_self_of_lt S j _ d h3

theorem initS_len (b : List ℝ) (n : ℕ) (S : List ℝ) :
    (initS b n S).length = S.length :=
  iterSetFrom_len b n 0 S

theorem initS_drop (b : List ℝ) (n : ℕ) (S : List ℝ) :
    (initS b n S).drop n = S.drop n :=
  iterSetFrom_drop b n n 0 S (by omega)

theorem initS_getD (b : List ℝ) (n : ℕ) (S : List ℝ) (k : ℕ)
    (h1 : k < n) (h2 : k < S.length) : (initS b n S).getD k 0 = b.getD k 0 :=
  iterSetFrom_getD b n 0 S k 0 (by omega) (by omega) h2

/-- C10: `csvd` never resizes the caller-supplied `S`.  (i) On SUCCESS the
observed `S` has exactly the length the caller supplied, and every entry
at index `≥ min(rows, cols)` is exactly what the caller passed (only
indices below `min(rows, cols)` are ever written).  (ii) The same holds on
FAILURE.  (iii) The initialization loop `S[k] = b[k]` overwrites EVERY
index `k < min(rows, cols)` of the input matrix (so a call is in bounds
only when the caller passes `S` with length at least `min(rows, cols)`,
and the final length is whatever the caller supplied, not necessarily
`min(rows, cols)`). -/
theorem C10_csvd_S_in_place (fuel : ℕ) (A0 : CM) (S0 : List ℝ) :
    (∀ U S V, csvd fuel A0 S0 = SvdOut.ok U S V →
      S.length = S0.length ∧
      S.drop (min A0.rows A0.cols) = S0.drop (min A0.rows A0.cols)) ∧
    (∀ S, csvd fuel A0 S0 = SvdOut.fail S →
      S.length = S0.length ∧
      S.drop (min A0.rows A0.cols) = S0.drop (min A0.rows A0.cols)) ∧
    (∀ k, k < min A0.rows A0.cols → k < S0.length →
      (initS (phase1 (max A0.rows A0.cols) (min A0.rows A0.cols)
          (if A0.rows < A0.cols then dagger A0 else A0)).2.1
        (min A0.rows A0.cols) S0).getD k 0 =
      (phase1 (max A0.rows A0.cols) (min A0.rows A0.cols)
          (if A0.rows < A0.cols then dagger A0 else A0)).2.1.getD k 0) := by
  set n := min A0.rows A0.cols with hn
  have hinit : SKept n S0
      (initS (phase1 (max A0.rows A0.cols) n
        (if A0.rows < A0.cols then dagger A0 else A0)).2.1 n S0) :=
    ⟨initS_len _ n S0, initS_drop _ n S0⟩
  refine ⟨?_, ?_, ?_⟩
  · intro U S V h
    rw [csvd] at h
    split at h
    · exact absurd h (by simp)
    · exact absurd h (by simp)
    · exact absurd h (by simp)
    · rename_i st hout
      have hloop := outerLoop_SKept
        (epsOf (phase1 (max A0.rows A0.cols) n
          (if A0.rows < A0.cols then dagger A0 else A0)).2.1
          (phase1 (max A0.rows A0.cols) n
          (if A0.rows < A0.cols then dagger A0 else A0)).2.2 n) n fuel n
        ⟨initS (phase1 (max A0.rows A0.cols) n
          (if A0.rows < A0.cols then dagger A0 else A0)).2.1 n S0,
          initT (phase1 (max A0.rows A0.cols) n
            (if A0.rows < A0.cols then dagger A0 else A0)).2.2 n
            (max (max A0.rows A0.cols) n),
          idMat (max A0.rows A0.cols), idMat n⟩ (le_refl n)
      rw [hout] at hloop
      have hsort := sortLoop_SKept n n 0 st (by omega)
      have hall : SKept n S0 (sortLoop n 0 n st).S :=
        SKept.trans hinit (SKept.trans hloop hsort)
      split at h <;>
        (injection h with h1 h2 h3; rw [← h2]; exact ⟨hall.1, hall.2⟩)
  · intro S h
    rw [csvd] at h
    split at h
    · rename_i SS hout
      injection h with h1
      rw [← h1]
      have hloop := outerLoop_SKept
        (epsOf (phase1 (max A0.rows A0.cols) n
          (if A0.rows < A0.cols then dagger A0 else A0)).2.1
          (phase1 (max A0.rows A0.cols) n
          (if A0.rows < A0.cols then dagger A0 else A0)).2.2 n) n fuel n
        ⟨initS (phase1 (max A0.rows A0.cols) n
          (if A0.rows < A0.cols then dagger A0 else A0)).2.1 n S0,
          initT (phase1 (max A0.rows A0.cols) n
            (if A0.rows < A0.cols then dagger A0 else A0)).2.2 n
            (max (max A0.rows A0.cols) n),
          idMat (max A0.rows A0.cols), idMat n⟩ (le_refl n)
      rw [hout] at hloop
      exact ⟨(SKept.trans hinit hloop).1, (SKept.trans hinit hloop).2⟩
    · exact absurd h (by simp)
    · exact absurd h (by simp)
    · split at h <;> exact absurd h (by simp)
  · intro k hk hklen
    exact initS_getD _ n S0 k hk hklen

/-- C10 witness: the overwrite property applied to the 1×1 zero matrix
with the caller-supplied `S = [0]`. -/
theorem C10_csvd_S_in_place_witness :
    (initS (phase1 1 1 (CM.mk 1 1 fun _ _ => 0)).2.1 1 [(0 : ℝ)]).getD 0 0 =
      (phase1 1 1 (CM.mk 1 1 fun _ _ => 0)).2.1.getD 0 0 := by
  have h := (C10_csvd_S_in_place 1 (CM.mk 1 1 fun _ _ => 0) [(0 : ℝ)]).2.2 0
    (by simp) (by simp)
  simpa using h

theorem getD_set_zero_zero (X : List ℝ) : (X.set 0 (0 : ℝ)).getD 0 0 = 0 := by
  cases X <;> simp

theorem deflScan_safe (S t : List ℝ) (eps : ℝ) (heps : 0 < eps)
    (h0 : t.getD 0 0 = 0) : ∀ l0, deflScan S t eps l0 ≠ none := by
  intro l0
  induction l0 with
  | zero =>
    rw [deflScan, if_pos (by rw [h0]; simpa using heps)]
    simp
  | succ l ih =>
    rw [deflScan]
    split
    · simp
    · split
      · simp
      · exact ih

theorem deflScan_false_pos (S t : List ℝ) (eps : ℝ) :
    ∀ l0 jl, deflScan S t eps l0 = some jl → jl.1 = false → 1 ≤ jl.2 := by
  intro l0
  induction l0 with
  | zero =>
    intro jl h hfalse
    rw [deflScan] at h
    split at h
    · injection h with h1
      rw [← h1] at hfalse
      exact absurd hfalse (by simp)
    · exact absurd h (by simp)
  | succ l ih =>
    intro jl h hfalse
    rw [deflScan] at h
    split at h
    · injection h with h1
      rw [← h1] at hfalse
      exact absurd hfalse (by simp)
    · split at h
      · injection h with h1
        rw [← h1]
        omega
      · exact ih jl h hfalse

theorem prepLoop_t0 (eps : ℝ) (n l1 : ℕ) :
    ∀ cnt i cs sn st, 1 ≤ i →
      (prepLoop eps n l1 i cnt cs sn st).t.getD 0 0 = st.t.getD 0 0 := by
  intro cnt
  induction cnt with
  | zero =>
    intro i cs sn st _
    rfl
  | succ cc ih =>
    intro i cs sn st hi
    rw [prepLoop]
    split
    · exact getD_set_ne st.t i 0 _ 0 (by omega)
    · rw [ih (i + 1) _ _ _ (by omega)]
      exact getD_set_ne st.t i 0 _ 0 (by omega)

theorem chaseLoop_t0 (eps : ℝ) (n : ℕ) :
    ∀ cnt i cs sn f x st, 2 ≤ i →
      ∀ f2 x2 st2, chaseLoop eps n i cnt cs sn f x st = ChaseRes.done f2 x2 st2 →
        st2.t.getD 0 0 = st.t.getD 0 0 := by
  intro cnt
  induction cnt with
  | zero =>
    intro i cs sn f x st _ f2 x2 st2 h
    rw [chaseLoop] at h
    injection h with h1 h2 h3
    rw [← h3]
  | succ cc ih =>
    intro i cs sn f x st hi f2 x2 st2 h
    rw [chaseLoop] at h
    split at h <;> split at h
    · exact absurd h (by simp)
    · rw [ih (i + 1) _ _ _ _ _ (by omega) f2 x2 st2 h]
      exact getD_set_ne st.t (i - 1) 0 _ 0 (by omega)
    · exact absurd h (by simp)
    · rw [ih (i + 1) _ _ _ _ _ (by omega) f2 x2 st2 h]
      exact getD_set_ne st.t (i - 1) 0 _ 0 (by omega)

theorem innerWhile_t0 (eps : ℝ) (n k : ℕ) (heps : 0 < eps) :
    ∀ fuel st, st.t.getD 0 0 = 0 →
      innerWhile eps n k fuel st ≠ InnerRes.oob ∧
      (∀ w st1, innerWhile eps n k fuel st = InnerRes.brk w st1 →
        st1.t.getD 0 0 = 0) := by
  intro fuel
  induction fuel with
  | zero =>
    intro st h0
    rw [innerWhile]
    exact ⟨by simp, fun w st1 h => absurd h (by simp)⟩
  | succ ff ih =>
    intro st h0
    rw [innerWhile]
    rcases hscan : deflScan st.S st.t eps k with _ | jl
    · exact absurd hscan (deflScan_safe st.S st.t eps heps h0 k)
    · have hlk : jl.2 ≤ k := deflScan_le st.S st.t eps k jl hscan
      have hst1 : (if jl.1 = true then st
          else prepLoop eps n (jl.2 - 1) jl.2 (k - jl.2 + 1) 0 1 st).t.getD
            0 0 = 0 := by
        split
        · exact h0
        · rename_i hj
          have hpos : 1 ≤ jl.2 :=
            deflScan_false_pos st.S st.t eps k jl hscan
              (Bool.not_eq_true jl.1 ▸ (by simpa using hj))
          rw [prepLoop_t0 eps n (jl.2 - 1) (k - jl.2 + 1) jl.2 0 1 st hpos]
          exact h0
      have hbody : ∀ st0 : P2St, st0.t.getD 0 0 = 0 →
          (if jl.2 = k then InnerRes.brk (st0.S.getD k 0) st0
            else
              match chaseLoop eps n (jl.2 + 1) (k - jl.2) 1 1
                  (shiftF (st0.S.getD jl.2 0) (st0.S.getD (k - 1) 0)
                    (st0.t.getD (k - 1) 0) (st0.t.getD k 0)
                    (st0.S.getD k 0))
                  (st0.S.getD jl.2 0) st0 with
              | ChaseRes.failS SS => InnerRes.failS SS
              | ChaseRes.done f2 x2 st2 =>
                innerWhile eps n k ff
                  ⟨st2.S.set k x2, (st2.t.set jl.2 0).set k f2,
                    st2.U, st2.V⟩) ≠ InnerRes.oob ∧
          (∀ w st1,
            (if jl.2 = k then InnerRes.brk (st0.S.getD k 0) st0
              else
                match chaseLoop eps n (jl.2 + 1) (k - jl.2) 1 1
                    (shiftF (st0.S.getD jl.2 0) (st0.S.getD (k - 1) 0)
                      (st0.t.getD (k - 1) 0) (st0.t.getD k 0)
                      (st0.S.getD k 0))
                    (st0.S.getD jl.2 0) st0 with
                | ChaseRes.failS SS => InnerRes.failS SS
                | ChaseRes.done f2 x2 st2 =>
                  innerWhile eps n k ff
                    ⟨st2.S.set k x2, (st2.t.set jl.2 0).set k f2,
                      st2.U, st2.V⟩) = InnerRes.brk w st1 →
            st1.t.getD 0 0 = 0) := by
        intro st0 ht0
        split
        · constructor
          · simp
          · intro w st1 h
            injection h with h1 h2
            rw [← h2]
            exact ht0
        · rename_i hlke
          split
          · exact ⟨by simp, fun w st1 h => absurd h (by simp)⟩
          · rename_i f2 x2 st2 hcr
            have ht3 : ((st2.t.set jl.2 0).set k f2).getD 0 0 = 0 := by
              cases Nat.eq_zero_or_pos jl.2 with
              | inl hzero =>
                have hk1 : 1 ≤ k := by
                  rcases Nat.eq_zero_or_pos k with hk0 | hk0
                  · exact absurd (hzero.trans hk0.symm) hlke
                  · exact hk0
                rw [getD_set_ne _ k 0 _ 0 (by omega), hzero]
                exact getD_set_zero_zero st2.t
              | inr hpos =>
                have hk1 : 1 ≤ k := by omega
                rw [getD_set_ne _ k 0 _ 0 (by omega),
                  getD_set_ne _ jl.2 0 _ 0 (by omega)]
                rw [chaseLoop_t0 eps n (k - jl.2) (jl.2 + 1) 1 1 _ _ st0
                  (by omega) f2 x2 st2 hcr]
                exact ht0
            exact ih ⟨st2.S.set k x2, (st2.t.set jl.2 0).set k f2,
              st2.U, st2.V⟩ ht3
      constructor
      · have h2 := (hbody (if jl.1 = true then st
          else prepLoop eps n (jl.2 - 1) jl.2 (k - jl.2 + 1) 0 1 st) hst1).1
        exact h2
      · have h2 := (hbody (if jl.1 = true then st
          else prepLoop eps n (jl.2 - 1) jl.2 (k - jl.2 + 1) 0 1 st) hst1).2
        exact h2

theorem outerLoop_no_oob (eps : ℝ) (n fuel : ℕ) (heps : 0 < eps) :
    ∀ kk st, st.t.getD 0 0 = 0 → outerLoop eps n fuel kk st ≠ P2Res.oob := by
  intro kk
  induction kk with
  | zero =>
    intro st _
    rw [outerLoop]
    simp
  | succ kkp ih =>
    intro st h0
    rw [outerLoop]
    split
    · rename_i w st1 hin
      have h1 : st1.t.getD 0 0 = 0 :=
        (innerWhile_t0 eps n kkp heps fuel st h0).2 w st1 hin
      split
      · exact ih _ h1
      · exact ih _ h1
    · simp
    · rename_i hin
      exact absurd hin (innerWhile_t0 eps n kkp heps fuel st h0).1
    · simp

theorem getD_replicate_zero (sz : ℕ) :
    (List.replicate sz (0 : ℝ)).getD 0 0 = 0 := by
  cases sz <;> simp

theorem rowStep_c0 (m n k : ℕ) (A : CM) (c : List ℝ) :
    (rowStep m n k A c).2.getD 0 0 = c.getD 0 0 := by
  rw [rowStep]
  split
  · show ((c.set (k + 1) 0).set (k + 1) _).getD 0 0 = c.getD 0 0
    rw [getD_set_ne _ (k + 1) 0 _ 0 (by omega),
      getD_set_ne _ (k + 1) 0 _ 0 (by omega)]
  · show (c.set (k + 1) 0).getD 0 0 = c.getD 0 0
    rw [getD_set_ne _ (k + 1) 0 _ 0 (by omega)]

theorem phase1Loop_c0 (m n : ℕ) :
    ∀ cnt k st, (phase1Loop m n k cnt st).2.2.getD 0 0 = st.2.2.getD 0 0 := by
  intro cnt
  induction cnt with
  | zero =>
    intro k st
    rfl
  | succ cc ih =>
    intro k st
    rw [phase1Loop]
    split
    · rfl
    · rw [ih]
      exact rowStep_c0 m n k _ st.2.2

theorem phase1_c0 (m n : ℕ) (A : CM) : (phase1 m n A).2.2.getD 0 0 = 0 := by
  rw [phase1, phase1Loop_c0]
  exact getD_replicate_zero (max m n)

theorem initT_t0 (c : List ℝ) (n size : ℕ) (hc : c.getD 0 0 = 0) :
    (initT c n size).getD 0 0 = 0 := by
  rw [initT]
  rcases Nat.eq_zero_or_pos n with hn | hn
  · subst hn
    exact getD_replicate_zero size
  · rcases Nat.eq_zero_or_pos size with hs | hs
    · subst hs
      have hlen : (iterRange (fun k (SS : List ℝ) => SS.set k (c.getD k 0)) 0 n
          (List.replicate 0 (0 : ℝ))).length = 0 := by
        rw [iterSetFrom_len]
        rfl
      rw [List.length_eq_zero.mp hlen]
      rfl
    · rw [iterSetFrom_getD c n 0 _ 0 0 (le_refl 0) (by omega) (by simpa using hs)]
      exact hc

/-- C7 (amended): whenever the convergence threshold `eps` computed by
`csvd` is strictly positive, the phase-2 deflation scan never evaluates
`S[l-1]` at `l = 0`: `t[0]` is zero at every entry to the scan (it starts
as `c[0] = 0` and each chase restores `t[l] = 0`), so the first branch
`|t[0]| < eps` is taken.  But when `eps = 0` — that is, when every
`b[k] + c[k]` is zero, e.g. on the zero matrix — the strict comparison
`|t[0]| < eps` FAILS at `l = 0` and the scan reads `S[-1]` out of bounds
(`C7_counterexample`); the claim's "for every input matrix" is therefore
too strong. -/
theorem C7_deflation_scan (A0 : CM) (heps : 0 < csvdEps A0) :
    (∀ S t l0, t.getD 0 0 = 0 → deflScan S t (csvdEps A0) l0 ≠ none) ∧
    (∀ fuel S0, csvd fuel A0 S0 ≠ SvdOut.oobRead) := by
  constructor
  · intro S t l0 h0
    exact deflScan_safe S t (csvdEps A0) heps h0 l0
  · intro fuel S0 h
    rw [csvd] at h
    split at h
    · exact absurd h (by simp)
    · rename_i hout
      have heps2 : 0 < epsOf
          (phase1 (max A0.rows A0.cols) (min A0.rows A0.cols)
            (if A0.rows < A0.cols then dagger A0 else A0)).2.1
          (phase1 (max A0.rows A0.cols) (min A0.rows A0.cols)
            (if A0.rows < A0.cols then dagger A0 else A0)).2.2
          (min A0.rows A0.cols) := heps
      have ht0 : (initT (phase1 (max A0.rows A0.cols) (min A0.rows A0.cols)
          (if A0.rows < A0.cols then dagger A0 else A0)).2.2
          (min A0.rows A0.cols)
          (max (max A0.rows A0.cols) (min A0.rows A0.cols))).getD 0 0 = 0 :=
        initT_t0 _ _ _ (phase1_c0 _ _ _)
      exact absurd hout (outerLoop_no_oob _ _ fuel heps2 _ _ ht0)
    · exact absurd h (by simp)
    · split at h <;> exact absurd h (by simp)

/-- C7 counterexample: on the 1×1 zero matrix every column norm is below
`tol`, so `b = c = 0` and `eps = eta · 0 = 0`; at the first deflation scan
the branch `|t[0]| < eps` is the strict comparison `0 < 0`, which fails,
and the scan evaluates `S[-1]` — the out-of-bounds read the claim says
never happens. -/
theorem C7_counterexample :
    csvd 1 (CM.mk 1 1 fun _ _ => 0) [(0 : ℝ)] = SvdOut.oobRead := by
  norm_num [csvd, phase1, phase1Loop, colStep, rsum, initS, initT, iterRange,
    epsOf, outerLoop, innerWhile, deflScan, tolR, etaR]

/-- C7 witness: the amended scan-safety applied to the 1×1 matrix `[[1]]`,
whose `eps` is `eta = 1e-10 > 0`. -/
theorem C7_deflation_scan_witness :
    deflScan [(0 : ℝ)] [(0 : ℝ)] (csvdEps (CM.mk 1 1 fun _ _ => 1)) 0 ≠
      none ∧
    csvd 1 (CM.mk 1 1 fun _ _ => 1) [(0 : ℝ)] ≠ SvdOut.oobRead := by
  have heps : 0 < csvdEps (CM.mk 1 1 fun _ _ => 1) := by
    norm_num [csvdEps, phase1, phase1Loop, colStep, rsum, iterRange, epsOf,
      tolR, etaR, almostEqualR, zero_thresholdR, Complex.normSq_one]
  exact ⟨(C7_deflation_scan (CM.mk 1 1 fun _ _ => 1) heps).1
      [(0 : ℝ)] [(0 : ℝ)] 0 (by simp),
    (C7_deflation_scan (CM.mk 1 1 fun _ _ => 1) heps).2 1 [(0 : ℝ)]⟩

/-- The preparatory Givens sweep writes `S` only at indices below
`i + cnt`; entries at `j ≥ i + cnt` are untouched. -/
theorem prepLoop_S_hi (eps : ℝ) (n l1 : ℕ) :
    ∀ cnt i cs sn st j, i + cnt ≤ j →
      (prepLoop eps n l1 i cnt cs sn st).S.getD j 0 = st.S.getD j 0 := by
  intro cnt
  induction cnt with
  | zero =>
    intro i cs sn st j _
    rfl
  | succ cc ih =>
    intro i cs sn st j h
    simp only [prepLoop]
    split
    · rfl
    · exact (ih (i + 1) _ _ _ j (by omega)).trans
        (getD_set_ne st.S i j _ 0 (by omega))

/-- The bulge chase writes `S` only at indices `i - 1, …, i + cnt - 2`;
entries at `j ≥ i + cnt - 1` are untouched on a `done` exit. -/
theorem chaseLoop_S_hi (eps : ℝ) (n : ℕ) :
    ∀ cnt i cs sn f x st j, 1 ≤ i → i + cnt ≤ j + 1 →
      ∀ f2 x2 st2,
        chaseLoop eps n i cnt cs sn f x st = ChaseRes.done f2 x2 st2 →
        st2.S.getD j 0 = st.S.getD j 0 := by
  intro cnt
  induction cnt with
  | zero =>
    intro i cs sn f x st j _ _ f2 x2 st2 h
    rw [chaseLoop] at h
    injection h with h1 h2 h3
    rw [← h3]
  | succ cc ih =>
    intro i cs sn f x st j hi h f2 x2 st2 hres
    rw [chaseLoop] at hres
    split at hres <;> split at hres
    · exact absurd hres (by simp)
    · exact (ih (i + 1) _ _ _ _ _ j (by omega) (by omega) f2 x2 st2 hres).trans
        (getD_set_ne st.S (i - 1) j _ 0 (by omega))
    · exact absurd hres (by simp)
    · exact (ih (i + 1) _ _ _ _ _ j (by omega) (by omega) f2 x2 st2 hres).trans
        (getD_set_ne st.S (i - 1) j _ 0 (by omega))

/-- Transitivity of the above-`k` preservation part of `innerBrk`. -/
theorem innerBrk_mono {k : ℕ} {a b : List ℝ} {r : InnerRes}
    (hab : ∀ j, k < j → b.getD j 0 = a.getD j 0)
    (h : innerBrk k b r) : innerBrk k a r := by
  cases r with
  | brk w st1 => exact ⟨h.1, fun j hj => (h.2 j hj).trans (hab j hj)⟩
  | failS SS => trivial
  | oob => trivial
  | noFuel => trivial

/-- The inner loop satisfies `innerBrk`: on a `brk w st1` exit, `w` is
`st1.S[k]` and no index above `k` of `S` was written. -/
theorem innerWhile_brk_inv (eps : ℝ) (n k : ℕ) (hk : k < n) :
    ∀ fuel st, innerBrk k st.S (innerWhile eps n k fuel st) := by
  intro fuel
  induction fuel with
  | zero =>
    intro st
    rw [innerWhile]
    trivial
  | succ ff ih =>
    intro st
    rw [innerWhile]
    split
    · trivial
    · rename_i jl hscan
      have hlk : jl.2 ≤ k := deflScan_le st.S st.t eps k jl hscan
      have hbody : ∀ st0 : P2St,
          (∀ j, k < j → st0.S.getD j 0 = st.S.getD j 0) →
          innerBrk k st.S
            (if jl.2 = k then InnerRes.brk (st0.S.getD k 0) st0
              else
                match chaseLoop eps n (jl.2 + 1) (k - jl.2) 1 1
                    (shiftF (st0.S.getD jl.2 0) (st0.S.getD (k - 1) 0)
                      (st0.t.getD (k - 1) 0) (st0.t.getD k 0)
                      (st0.S.getD k 0))
                    (st0.S.getD jl.2 0) st0 with
                | ChaseRes.failS SS => InnerRes.failS SS
                | ChaseRes.done f2 x2 st2 =>
                  innerWhile eps n k ff
                    ⟨st2.S.set k x2, (st2.t.set jl.2 0).set k f2,
                      st2.U, st2.V⟩) := by
        intro st0 h0
        split
        · exact ⟨rfl, h0⟩
        · rename_i hlke
          split
          · trivial
          · rename_i f2 x2 st2 hcr
            have hch : ∀ j, k < j → st2.S.getD j 0 = st0.S.getD j 0 :=
              fun j hj => chaseLoop_S_hi eps n (k - jl.2) (jl.2 + 1)
                1 1 _ _ _ j (by omega) (by omega) f2 x2 st2 hcr
            have hrec := ih ⟨st2.S.set k x2, (st2.t.set jl.2 0).set k f2,
              st2.U, st2.V⟩
            exact innerBrk_mono
              (fun j hj => ((getD_set_ne st2.S k j x2 0 (by omega)).trans
                (hch j hj)).trans (h0 j hj)) hrec
      split
      · exact hbody st (fun _ _ => rfl)
      · exact hbody (prepLoop eps n (jl.2 - 1) jl.2 (k - jl.2 + 1) 0 1 st)
          (fun j hj => prepLoop_S_hi eps n (jl.2 - 1) (k - jl.2 + 1) jl.2
            0 1 st j (by omega))

/-- The phase-2 outer loop on SUCCESS: indices `≥ kk` of `S` are
untouched, and every processed index `j < kk` ends at least `-1e-13`
(svd.cpp lines 492-498: the sign sweep leaves `S[k] = w` only when
`¬(w < -1e-13)` and otherwise stores `-w > 1e-13`; later outer
iterations, with smaller `k`, never write that index again). -/
theorem outerLoop_S_bound (eps : ℝ) (n fuel : ℕ) :
    ∀ kk st, kk ≤ n → n ≤ st.S.length →
      ∀ st', outerLoop eps n fuel kk st = P2Res.ok st' →
        (∀ j, kk ≤ j → st'.S.getD j 0 = st.S.getD j 0) ∧
        (∀ j, j < kk → -oneE13 ≤ st'.S.getD j 0) := by
  intro kk
  induction kk with
  | zero =>
    intro st _ _ st' h
    rw [outerLoop] at h
    injection h with h1
    subst h1
    exact ⟨fun j _ => rfl, fun j hj => absurd hj (Nat.not_lt_zero j)⟩
  | succ kkp ih =>
    intro st hkk hlen st' hres
    have hklt : kkp < n := by omega
    rw [outerLoop] at hres
    split at hres
    · rename_i w st1 hin
      have hbrk := innerWhile_brk_inv eps n kkp hklt fuel st
      rw [hin] at hbrk
      obtain ⟨hw, hhi⟩ := hbrk
      have hkept := innerWhile_SKept eps n kkp hklt fuel st
      rw [hin] at hkept
      have hlen1 : n ≤ st1.S.length := by
        have h2 : st1.S.length = st.S.length := hkept.1
        omega
      split at hres
      · rename_i hneg
        have hlen2 : n ≤ (st1.S.set kkp (-w)).length := by
          rw [List.length_set]
          exact hlen1
        obtain ⟨ih1, ih2⟩ := ih ⟨st1.S.set kkp (-w), st1.t, st1.U,
          negColV st1.V n kkp⟩ (by omega) hlen2 st' hres
        constructor
        · intro j hj
          rw [ih1 j (by omega)]
          exact (getD_set_ne st1.S kkp j _ 0 (by omega)).trans
            (hhi j (by omega))
        · intro j hj
          rcases Nat.lt_or_ge j kkp with hjk | hjk
          · exact ih2 j hjk
          · have hjeq : j = kkp := by omega
            subst hjeq
            have hv : st'.S.getD j 0 = -w :=
              (ih1 j (le_refl j)).trans
                (getD_set_self_of_lt st1.S j (-w) 0 (by omega))
            rw [hv]
            have h13 : (0 : ℝ) < oneE13 := by norm_num [oneE13]
            linarith
      · rename_i hpos
        obtain ⟨ih1, ih2⟩ := ih st1 (by omega) hlen1 st' hres
        constructor
        · intro j hj
          rw [ih1 j (by omega)]
          exact hhi j (by omega)
        · intro j hj
          rcases Nat.lt_or_ge j kkp with hjk | hjk
          · exact ih2 j hjk
          · have hjeq : j = kkp := by omega
            subst hjeq
            have hv : st'.S.getD j 0 = w := (ih1 j (le_refl j)).trans hw.symm
            rw [hv]
            exact not_lt.mp hpos
    · exact absurd hres (by simp)
    · exact absurd hres (by simp)
    · exact absurd hres (by simp)

/-- Once the selection scan register `(g, j)` holds a value of `S`, it
holds one at exit. -/
theorem selMaxLoop_val_inv (S : List ℝ) :
    ∀ cnt i g j, g = S.getD j 0 →
      (selMaxLoop S i cnt g j).1 = S.getD (selMaxLoop S i cnt g j).2 0 := by
  intro cnt
  induction cnt with
  | zero =>
    intro i g j h
    exact h
  | succ cc ih =>
    intro i g j h
    rw [selMaxLoop]
    split
    · exact ih (i + 1) _ i rfl
    · exact ih (i + 1) g j h

/-- The selection scan returns either its initial register `(g, j)`
untouched or a register satisfying `g = S[j]`. -/
theorem selMaxLoop_pair (S : List ℝ) :
    ∀ cnt i g j, selMaxLoop S i cnt g j = (g, j) ∨
      (selMaxLoop S i cnt g j).1 = S.getD (selMaxLoop S i cnt g j).2 0 := by
  intro cnt
  induction cnt with
  | zero =>
    intro i g j
    left
    rfl
  | succ cc ih =>
    intro i g j
    rw [selMaxLoop]
    split
    · right
      exact selMaxLoop_val_inv S cc (i + 1) _ i rfl
    · exact ih (i + 1) g j

/-- The value returned by the selection scan dominates the initial `g`
and every scanned entry `S[i], …, S[i+cnt-1]`. -/
theorem selMaxLoop_ge (S : List ℝ) :
    ∀ cnt i g j, g ≤ (selMaxLoop S i cnt g j).1 ∧
      ∀ jj, i ≤ jj → jj < i + cnt →
        S.getD jj 0 ≤ (selMaxLoop S i cnt g j).1 := by
  intro cnt
  induction cnt with
  | zero =>
    intro i g j
    exact ⟨le_refl g, fun jj h1 h2 => absurd h2 (by omega)⟩
  | succ cc ih =>
    intro i g j
    rw [selMaxLoop]
    split
    · rename_i hlt
      obtain ⟨h1, h2⟩ := ih (i + 1) (S.getD i 0) i
      refine ⟨le_of_lt (lt_of_lt_of_le hlt h1), ?_⟩
      intro jj hj1 hj2
      rcases eq_or_lt_of_le hj1 with he | hl
      · rw [← he]
        exact h1
      · exact h2 jj (by omega) (by omega)
    · rename_i hge
      obtain ⟨h1, h2⟩ := ih (i + 1) g j
      refine ⟨h1, ?_⟩
      intro jj hj1 hj2
      rcases eq_or_lt_of_le hj1 with he | hl
      · rw [← he]
        exact le_trans (not_lt.mp hge) h1
      · exact h2 jj (by omega) (by omega)

/-- The index returned by the selection scan never drops below a lower
bound common to the initial index and the scan start. -/
theorem selMaxLoop_j_lb (S : List ℝ) :
    ∀ cnt i g j k0, k0 ≤ i → k0 ≤ j → k0 ≤ (selMaxLoop S i cnt g j).2 := by
  intro cnt
  induction cnt with
  | zero =>
    intro i g j k0 _ hj
    exact hj
  | succ cc ih =>
    intro i g j k0 hi hj
    rw [selMaxLoop]
    split
    · exact ih (i + 1) _ i k0 (by omega) hi
    · exact ih (i + 1) g j k0 (by omega) hj

/-- Column `J` of the swapped matrix holds old column `k` (rows `< n`). -/
theorem swapColsN_f_left (M : CM) (n J k i : ℕ) (hi : i < n) :
    (swapColsN M n J k).f i J = M.f i k := by
  simp [swapColsN, hi]

/-- Column `k` of the swapped matrix holds old column `J` (rows `< n`). -/
theorem swapColsN_f_right (M : CM) (n J k i : ℕ) (hi : i < n)
    (hne : J ≠ k) : (swapColsN M n J k).f i k = M.f i J := by
  simp [swapColsN, hi, Ne.symm hne]

/-- Columns other than `J` and `k` are untouched by the swap. -/
theorem swapColsN_f_other (M : CM) (n J k i b : ℕ) (hb1 : b ≠ J)
    (hb2 : b ≠ k) : (swapColsN M n J k).f i b = M.f i b := by
  simp [swapColsN, hb1, hb2]

/-- One selection-sort pass at position `k`, when every entry of
`S[k..n)` is `> -1` (so the `g = -1` initial register is always beaten):
the prefix `S[0..k)` is untouched, every entry of the new `S[k..n)` is an
entry of the old `S[k..n)`, and the new `S[k]` dominates the new
`S[k..n)`. -/
theorem sortPass_spec (n k : ℕ) (st : P2St) (hk : k < n)
    (hlen : n ≤ st.S.length)
    (hbnd : ∀ j, k ≤ j → j < n → (-1 : ℝ) < st.S.getD j 0) :
    (∀ a, a < k → (sortPass n k st).S.getD a 0 = st.S.getD a 0) ∧
    (∀ j, k ≤ j → j < n → ∃ j2, k ≤ j2 ∧ j2 < n ∧
      (sortPass n k st).S.getD j 0 = st.S.getD j2 0) ∧
    (∀ j, k ≤ j → j < n →
      (sortPass n k st).S.getD j 0 ≤ (sortPass n k st).S.getD k 0) := by
  have hjlt : (selMaxLoop st.S k (n - k) (-1) k).2 < n :=
    selMaxLoop_j_bound st.S n (n - k) k (-1) k hk (by omega)
  have hjge : k ≤ (selMaxLoop st.S k (n - k) (-1) k).2 :=
    selMaxLoop_j_lb st.S (n - k) k (-1) k k (le_refl k) (le_refl k)
  obtain ⟨hg1, hg2⟩ := selMaxLoop_ge st.S (n - k) k (-1) k
  have hgmax : ∀ jj, k ≤ jj → jj < n →
      st.S.getD jj 0 ≤ (selMaxLoop st.S k (n - k) (-1) k).1 :=
    fun jj h1 h2 => hg2 jj h1 (by omega)
  have hval : (selMaxLoop st.S k (n - k) (-1) k).1 =
      st.S.getD (selMaxLoop st.S k (n - k) (-1) k).2 0 := by
    rcases selMaxLoop_pair st.S (n - k) k (-1) k with hp | hv
    · exfalso
      have h1 := hgmax k (le_refl k) hk
      rw [hp] at h1
      have h1a : st.S.getD k 0 ≤ -1 := h1
      have h2 := hbnd k (le_refl k) hk
      linarith
    · exact hv
  rw [sortPass]
  set J := (selMaxLoop st.S k (n - k) (-1) k).2 with hJ
  set G := (selMaxLoop st.S k (n - k) (-1) k).1 with hG
  split
  · rename_i hne
    refine ⟨?_, ?_, ?_⟩
    · intro a ha
      show ((st.S.set J (st.S.getD k 0)).set k G).getD a 0 = st.S.getD a 0
      rw [getD_set_ne _ k a G 0 (by omega), getD_set_ne st.S J a _ 0 (by omega)]
    · intro j h1 h2
      rcases eq_or_ne j k with he | hne2
      · subst he
        refine ⟨J, hjge, hjlt, ?_⟩
        show ((st.S.set J (st.S.getD j 0)).set j G).getD j 0 = st.S.getD J 0
        rw [getD_set_self_of_lt _ j G 0 (by rw [List.length_set]; omega)]
        exact hval
      · rcases eq_or_ne j J with hej | hne3
        · subst hej
          refine ⟨k, le_refl k, hk, ?_⟩
          show ((st.S.set J (st.S.getD k 0)).set k G).getD J 0 = st.S.getD k 0
          rw [getD_set_ne _ k J G 0 (Ne.symm hne2)]
          exact getD_set_self_of_lt st.S J _ 0 (by omega)
        · refine ⟨j, h1, h2, ?_⟩
          show ((st.S.set J (st.S.getD k 0)).set k G).getD j 0 = st.S.getD j 0
          rw [getD_set_ne _ k j G 0 (Ne.symm hne2),
            getD_set_ne st.S J j _ 0 (Ne.symm hne3)]
    · intro j h1 h2
      have hSk : ((st.S.set J (st.S.getD k 0)).set k G).getD k 0 = G :=
        getD_set_self_of_lt _ k G 0 (by rw [List.length_set]; omega)
      show ((st.S.set J (st.S.getD k 0)).set k G).getD j 0 ≤
        ((st.S.set J (st.S.getD k 0)).set k G).getD k 0
      rw [hSk]
      rcases eq_or_ne j k with he | hne2
      · subst he
        rw [hSk]
      · rcases eq_or_ne j J with hej | hne3
        · subst hej
          rw [getD_set_ne _ k J G 0 (Ne.symm hne2),
            getD_set_self_of_lt st.S J _ 0 (by omega)]
          exact hgmax k (le_refl k) hk
        · rw [getD_set_ne _ k j G 0 (Ne.symm hne2),
            getD_set_ne st.S J j _ 0 (Ne.symm hne3)]
          exact hgmax j h1 h2
  · rename_i heq
    push_neg at heq
    refine ⟨fun a _ => rfl, fun j h1 h2 => ⟨j, h1, h2, rfl⟩, ?_⟩
    intro j h1 h2
    have h3 := hgmax j h1 h2
    rw [hval, heq] at h3
    exact h3

/-- Lockstep of one selection-sort pass: there is a permutation `π` of
the column indices, moving only indices `< n`, aligning the
`(S[j], U-column j, V-column j)` triples after the pass with those before
it (the transposition of `j` and `k` when the scan found the maximum at
`j ≠ k`, the identity otherwise). -/
theorem sortPass_perm (n k : ℕ) (st : P2St) (hk : k < n)
    (hlen : n ≤ st.S.length) :
    ∃ π : Equiv.Perm ℕ, (∀ j, π j ≠ j → j < n) ∧
      ∀ j, colTriple n (sortPass n k st) j = colTriple n st (π j) := by
  have hjlt : (selMaxLoop st.S k (n - k) (-1) k).2 < n :=
    selMaxLoop_j_bound st.S n (n - k) k (-1) k hk (by omega)
  rw [sortPass]
  split
  · rename_i hne
    have hval : (selMaxLoop st.S k (n - k) (-1) k).1 =
        st.S.getD (selMaxLoop st.S k (n - k) (-1) k).2 0 := by
      rcases selMaxLoop_pair st.S (n - k) k (-1) k with hp | hv
      · exfalso
        apply hne
        rw [hp]
      · exact hv
    set J := (selMaxLoop st.S k (n - k) (-1) k).2 with hJ
    set G := (selMaxLoop st.S k (n - k) (-1) k).1 with hG
    refine ⟨Equiv.swap J k, ?_, ?_⟩
    · intro j hj
      by_cases h1 : j = J
      · subst h1
        exact hjlt
      · by_cases h2 : j = k
        · subst h2
          exact hk
        · exact absurd (Equiv.swap_apply_of_ne_of_ne h1 h2) hj
    · intro j
      rcases eq_or_ne j k with h2 | h2
      · subst h2
        rw [Equiv.swap_apply_right]
        simp only [colTriple, Prod.mk.injEq]
        refine ⟨?_, ?_, ?_⟩
        · show ((st.S.set J (st.S.getD j 0)).set j G).getD j 0 = st.S.getD J 0
          rw [getD_set_self_of_lt _ j G 0 (by rw [List.length_set]; omega)]
          exact hval
        · funext i
          by_cases hi : i < n
          · simp only [hi, if_true]
            exact swapColsN_f_right st.U n J j i hi hne
          · simp only [hi, if_false]
        · funext i
          by_cases hi : i < n
          · simp only [hi, if_true]
            exact swapColsN_f_right st.V n J j i hi hne
          · simp only [hi, if_false]
      · rcases eq_or_ne j J with h3 | h3
        · subst h3
          rw [Equiv.swap_apply_left]
          simp only [colTriple, Prod.mk.injEq]
          refine ⟨?_, ?_, ?_⟩
          · show ((st.S.set J (st.S.getD k 0)).set k G).getD J 0 =
              st.S.getD k 0
            rw [getD_set_ne _ k J G 0 (Ne.symm h2)]
            exact getD_set_self_of_lt st.S J _ 0 (by omega)
          · funext i
            by_cases hi : i < n
            · simp only [hi, if_true]
              exact swapColsN_f_left st.U n J k i hi
            · simp only [hi, if_false]
          · funext i
            by_cases hi : i < n
            · simp only [hi, if_true]
              exact swapColsN_f_left st.V n J k i hi
            · simp only [hi, if_false]
        · rw [Equiv.swap_apply_of_ne_of_ne h3 h2]
          simp only [colTriple, Prod.mk.injEq]
          refine ⟨?_, ?_, ?_⟩
          · show ((st.S.set J (st.S.getD k 0)).set k G).getD j 0 =
              st.S.getD j 0
            rw [getD_set_ne _ k j G 0 (Ne.symm h2),
              getD_set_ne st.S J j _ 0 (Ne.symm h3)]
          · funext i
            by_cases hi : i < n
            · simp only [hi, if_true]
              exact swapColsN_f_other st.U n J k i j h3 h2
            · simp only [hi, if_false]
          · funext i
            by_cases hi : i < n
            · simp only [hi, if_true]
              exact swapColsN_f_other st.V n J k i j h3 h2
            · simp only [hi, if_false]
  · exact ⟨Equiv.refl ℕ, fun j hj => absurd rfl hj, fun j => rfl⟩

/-- Lockstep of the whole selection sort: the passes compose to a
permutation of the column indices, moving only indices `< n`, aligning
the `(S, U-column, V-column)` triples after the sort with those before
it. -/
theorem sortLoop_perm (n : ℕ) :
    ∀ cnt k st, k + cnt ≤ n → n ≤ st.S.length →
      ∃ π : Equiv.Perm ℕ, (∀ j, π j ≠ j → j < n) ∧
        ∀ j, colTriple n (sortLoop n k cnt st) j = colTriple n st (π j) := by
  intro cnt
  induction cnt with
  | zero =>
    intro k st _ _
    exact ⟨Equiv.refl ℕ, fun j hj => absurd rfl hj, fun j => rfl⟩
  | succ cc ih =>
    intro k st hkn hlen
    have hk : k < n := by omega
    obtain ⟨p1, hp1, hp2⟩ := sortPass_perm n k st hk hlen
    have hlen2 : n ≤ (sortPass n k st).S.length := by
      have h2 : (sortPass n k st).S.length = st.S.length :=
        (sortPass_SKept n k st hk).1
      omega
    obtain ⟨p2, hr1, hr2⟩ := ih (k + 1) (sortPass n k st) (by omega) hlen2
    refine ⟨p2.trans p1, ?_, ?_⟩
    · intro j hj
      rcases eq_or_ne (p2 j) j with he | hne
      · apply hp1 j
        rw [Equiv.trans_apply, he] at hj
        exact hj
      · exact hr1 j hne
    · intro j
      rw [sortLoop, hr2 j, hp2 (p2 j), Equiv.trans_apply]

/-- Selection-sort correctness: from position `k` on, given a sorted
dominating prefix and entries `> -1` (so the `g = -1` register is always
beaten), the final `S` is non-increasing on `[0, n)`. -/
theorem sortLoop_sorted (n : ℕ) :
    ∀ cnt k st, k + cnt = n → n ≤ st.S.length →
      (∀ a b, a < b → b < k → st.S.getD b 0 ≤ st.S.getD a 0) →
      (∀ a b, a < k → k ≤ b → b < n → st.S.getD b 0 ≤ st.S.getD a 0) →
      (∀ j, k ≤ j → j < n → (-1 : ℝ) < st.S.getD j 0) →
      ∀ a b, a ≤ b → b < n →
        (sortLoop n k cnt st).S.getD b 0 ≤
          (sortLoop n k cnt st).S.getD a 0 := by
  intro cnt
  induction cnt with
  | zero =>
    intro k st hkn hlen hpre hdom hbnd a b hab hb
    rw [sortLoop]
    rcases eq_or_lt_of_le hab with he | hl
    · rw [he]
    · exact hpre a b hl (by omega)
  | succ cc ih =>
    intro k st hkn hlen hpre hdom hbnd a b hab hb
    rw [sortLoop]
    have hk : k < n := by omega
    obtain ⟨hp1, hp2, hp3⟩ := sortPass_spec n k st hk hlen hbnd
    have hlen2 : n ≤ (sortPass n k st).S.length := by
      have h2 : (sortPass n k st).S.length = st.S.length :=
        (sortPass_SKept n k st hk).1
      omega
    refine ih (k + 1) (sortPass n k st) (by omega) hlen2 ?_ ?_ ?_ a b hab hb
    · intro a2 b2 hab2 hb2
      rcases Nat.lt_or_ge b2 k with hbk | hbk
      · rw [hp1 b2 hbk, hp1 a2 (by omega)]
        exact hpre a2 b2 hab2 hbk
      · have hbe : b2 = k := by omega
        subst hbe
        obtain ⟨j2, hj2a, hj2b, hj2e⟩ := hp2 b2 (le_refl b2) hk
        rw [hj2e, hp1 a2 (by omega)]
        exact hdom a2 j2 (by omega) hj2a hj2b
    · intro a2 b2 ha2 hb2 hb2n
      obtain ⟨j2, hj2a, hj2b, hj2e⟩ := hp2 b2 (by omega) hb2n
      rcases Nat.lt_or_ge a2 k with hak | hak
      · rw [hj2e, hp1 a2 hak]
        exact hdom a2 j2 hak hj2a hj2b
      · have hae : a2 = k := by omega
        subst hae
        exact hp3 b2 (by omega) hb2n
    · intro j hj1 hj2
      obtain ⟨j2, hj2a, hj2b, hj2e⟩ := hp2 j (by omega) hj2
      rw [hj2e]
      exact hbnd j2 hj2a hj2b

/-- C5 (amended): when `csvd` returns SUCCESS and the caller supplied
`S` with length at least `min(rows, cols)` (the in-bounds requirement,
cf. C10), the FIRST `min(rows, cols)` entries of the output `S` — the
only ones the kernel manages — are sorted in non-increasing order, and
each of them is at least `-1e-13` (the sign sweep enforces only
`S[k] ≥ -1e-13`, not non-negativity); and the selection sort permutes
the `(S[j], U-column j, V-column j)` triples in lockstep, touching only
indices below `n`.  The original claim's "every entry of S is
non-negative" fails: entries at indices `≥ min(rows, cols)` are caller
memory the kernel never writes (see `C5_counterexample`). -/
theorem C5_monotone_spectrum (fuel : ℕ) (A0 : CM) (S0 : List ℝ)
    (hlen : min A0.rows A0.cols ≤ S0.length) (S : List ℝ)
    (hS : (csvd fuel A0 S0).sList = some S)
    (hok : (csvd fuel A0 S0).isOk = true) :
    (∀ a b, a ≤ b → b < min A0.rows A0.cols → S.getD b 0 ≤ S.getD a 0) ∧
    (∀ j, j < min A0.rows A0.cols → -oneE13 ≤ S.getD j 0) ∧
    (∀ nn cnt kk (st : P2St), kk + cnt ≤ nn → nn ≤ st.S.length →
      ∃ π : Equiv.Perm ℕ, (∀ j, π j ≠ j → j < nn) ∧
        ∀ j, colTriple nn (sortLoop nn kk cnt st) j = colTriple nn st (π j)) := by
  set n := min A0.rows A0.cols with hn
  rw [csvd] at hS hok
  split at hS
  · rename_i SS hout
    rw [hout] at hok
    simp [SvdOut.isOk] at hok
  · simp [SvdOut.sList] at hS
  · simp [SvdOut.sList] at hS
  · rename_i st hout
    have hloopK := outerLoop_SKept
      (epsOf (phase1 (max A0.rows A0.cols) n
        (if A0.rows < A0.cols then dagger A0 else A0)).2.1
        (phase1 (max A0.rows A0.cols) n
        (if A0.rows < A0.cols then dagger A0 else A0)).2.2 n) n fuel n
      ⟨initS (phase1 (max A0.rows A0.cols) n
        (if A0.rows < A0.cols then dagger A0 else A0)).2.1 n S0,
        initT (phase1 (max A0.rows A0.cols) n
          (if A0.rows < A0.cols then dagger A0 else A0)).2.2 n
          (max (max A0.rows A0.cols) n),
        idMat (max A0.rows A0.cols), idMat n⟩ (le_refl n)
    rw [hout] at hloopK
    have hkept2 : SKept n
        (initS (phase1 (max A0.rows A0.cols) n
          (if A0.rows < A0.cols then dagger A0 else A0)).2.1 n S0) st.S :=
      hloopK
    have hlenS1 : n ≤ (initS (phase1 (max A0.rows A0.cols) n
        (if A0.rows < A0.cols then dagger A0 else A0)).2.1 n S0).length := by
      rw [initS_len]
      exact hlen
    have hlenSt : n ≤ st.S.length := by
      have h2 := hkept2.1
      omega
    obtain ⟨hb1, hb2⟩ := outerLoop_S_bound
      (epsOf (phase1 (max A0.rows A0.cols) n
        (if A0.rows < A0.cols then dagger A0 else A0)).2.1
        (phase1 (max A0.rows A0.cols) n
        (if A0.rows < A0.cols then dagger A0 else A0)).2.2 n) n fuel n
      ⟨initS (phase1 (max A0.rows A0.cols) n
        (if A0.rows < A0.cols then dagger A0 else A0)).2.1 n S0,
        initT (phase1 (max A0.rows A0.cols) n
          (if A0.rows < A0.cols then dagger A0 else A0)).2.2 n
          (max (max A0.rows A0.cols) n),
        idMat (max A0.rows A0.cols), idMat n⟩ (le_refl n) hlenS1 st hout
    have hbnd1 : ∀ j, 0 ≤ j → j < n → (-1 : ℝ) < st.S.getD j 0 := by
      intro j _ hj
      have h2 := hb2 j hj
      have h3 : (-1 : ℝ) < -oneE13 := by norm_num [oneE13]
      linarith
    have hsorted : ∀ a b, a ≤ b → b < n →
        (sortLoop n 0 n st).S.getD b 0 ≤ (sortLoop n 0 n st).S.getD a 0 :=
      sortLoop_sorted n n 0 st (by omega) hlenSt
        (fun a b _ hb => absurd hb (by omega))
        (fun a b ha _ _ => absurd ha (by omega))
        (fun j _ hj => hbnd1 j (by omega) hj)
    have hbnd2 : ∀ j, j < n → -oneE13 ≤ (sortLoop n 0 n st).S.getD j 0 := by
      obtain ⟨p1, hq1, hq2⟩ := sortLoop_perm n n 0 st (by omega) hlenSt
      intro j hj
      have hqlt : p1 j < n := by
        rcases eq_or_ne (p1 j) j with he | hne
        · rw [he]
          exact hj
        · refine hq1 (p1 j) ?_
          intro hc
          exact hne (p1.injective hc)
      have hfst : (sortLoop n 0 n st).S.getD j 0 = st.S.getD (p1 j) 0 :=
        congrArg Prod.fst (hq2 j)
      rw [hfst]
      exact hb2 (p1 j) hqlt
    split at hS <;>
      (simp only [SvdOut.sList, Option.some.injEq] at hS;
        subst hS;
        exact ⟨hsorted, hbnd2, fun nn cnt kk st2 h1 h2 =>
          sortLoop_perm nn cnt kk st2 h1 h2⟩)

/-- Concrete end-to-end run of `csvd` on the 2×1 matrix `[[1], [0]]`
with caller-supplied `S = [0, -1]` (length 2 > min(rows, cols) = 1):
phase 1 reduces the column to `b = [1]`, phase 2 deflates immediately at
`k = l = 0`, the sign sweep and sort are trivial, and the kernel returns
SUCCESS with `S = [1, -1]` — the caller's `-1` at index 1 untouched. -/
theorem csvd_A21_eval :
    (csvd 1 (CM.mk 2 1 fun i _ => if i = 0 then 1 else 0)
      [(0 : ℝ), -1]).sList = some [1, -1] ∧
    (csvd 1 (CM.mk 2 1 fun i _ => if i = 0 then 1 else 0)
      [(0 : ℝ), -1]).isOk = true := by
  norm_num [csvd, phase1, phase1Loop, colStep, rsum, initS, initT, iterRange,
    epsOf, outerLoop, innerWhile, deflScan, sortLoop, sortPass, selMaxLoop,
    tolR, etaR, oneE13, almostEqualR, zero_thresholdR, CM.upd,
    SvdOut.sList, SvdOut.isOk, Complex.normSq_one, Complex.normSq_zero]

/-- C5 counterexample: a SUCCESS run whose output `S` contains a
negative entry.  On the 2×1 matrix `[[1], [0]]` with caller-supplied
`S = [0, -1]`, `csvd` returns SUCCESS with `S = [1, -1]`: the entry at
index 1 (beyond `min(rows, cols) = 1`, but part of the vector `S` the
claim quantifies over) is `-1 < 0`, so "every entry of S is
non-negative" is false. -/
theorem C5_counterexample :
    (csvd 1 (CM.mk 2 1 fun i _ => if i = 0 then 1 else 0)
      [(0 : ℝ), -1]).isOk = true ∧
    (csvd 1 (CM.mk 2 1 fun i _ => if i = 0 then 1 else 0)
      [(0 : ℝ), -1]).sList = some [1, -1] ∧
    ¬ (0 : ℝ) ≤ [(1 : ℝ), -1].getD 1 0 := by
  refine ⟨csvd_A21_eval.2, csvd_A21_eval.1, ?_⟩
  norm_num [List.getD]

/-- C5 witness: the amended theorem applied to the concrete SUCCESS run
on the 2×1 matrix `[[1], [0]]` with `S = [0, -1]`, instantiating the
lower bound at the managed index 0 of the output `[1, -1]`. -/
theorem C5_monotone_spectrum_witness :
    (csvd 1 (CM.mk 2 1 fun i _ => if i = 0 then 1 else 0)
      [(0 : ℝ), -1]).sList = some [1, -1] ∧
    -oneE13 ≤ [(1 : ℝ), -1].getD 0 0 := by
  refine ⟨csvd_A21_eval.1, ?_⟩
  exact (C5_monotone_spectrum 1 (CM.mk 2 1 fun i _ => if i = 0 then 1 else 0)
    [(0 : ℝ), -1] (by norm_num) [1, -1]
    csvd_A21_eval.1 csvd_A21_eval.2).2.1 0 (by norm_num)
